import Mathlib

set_option autoImplicit false

/-!
Shallow embedding of `pyconfigatron/__init__.py` (a Python 2 module).

The module builds a process-wide configuration tree out of YAML documents.
Python objects of class `ConfigStore` are mutable and aliased, so the
embedding uses an explicit heap: a `ConfigStore` instance is an address
(`Nat`) into a list of `NodeData` records, and every operation threads the
heap.  The single `ConfigTree` lock flag shared by all nodes of one
hierarchy is the heap's `locked` field.  Python exceptions are modelled
with `Except PyErr`; since a Python exception does not roll back earlier
mutations, every stateful operation returns the final heap next to the
`Except` result.

YAML documents are modelled as nested mappings over scalars (`Yaml`); a
Python `dict` is an association list in insertion order.  YAML sequences
are out of scope (the source treats them exactly like scalars: anything
that is not a `dict` is stored as a leaf).
-/

/-- Exceptions the module can raise.  The first five mirror the exception
classes defined at the top of the source file; the rest are built-in Python
exceptions that the source can raise (`AttributeError` from calling a
method on a non-`ConfigStore` value, `TypeError` from `in`/indexing on a
scalar, `KeyError` from indexing a plain dict, `NameError` from the unbound
`sys` in `register`, `IOError` from `open` on a missing file, and the
recursion limit). -/
inductive PyErr where
  | genericError (msg : String)
  | missingEnvironment (msg : String)
  | undefinedKeyError (msg : String)
  | lockedError (msg : String)
  | configFileError (msg : String)
  | attributeError
  | typeError
  | keyError
  | nameError (unbound : String)
  | ioError
  | recursionError
deriving DecidableEq

/-- Nested YAML values: scalars and mappings.  A mapping is an association
list in insertion order (Python dicts cannot hold duplicate keys). -/
inductive Yaml where
  | vNull
  | vBool (b : Bool)
  | vInt (n : Int)
  | vStr (s : String)
  | vMap (entries : List (String × Yaml))

/-- Values stored in a node's `_attributes` dict: either a plain (non
`ConfigStore`) Python value, or a reference to a child `ConfigStore`. -/
inductive Value where
  | prim (y : Yaml)
  | ref (addr : Nat)

/-- The per-instance state of one `ConfigStore`: `_name`, `_path` and
`_attributes` (the shared `_config_tree` lives on the heap). -/
structure NodeData where
  name : String
  path : List String
  attributes : List (String × Value)

instance : Inhabited NodeData := ⟨⟨"", [], []⟩⟩

/-- One configuration hierarchy: every allocated `ConfigStore` node (the
address is the list index) plus the shared `ConfigTree.locked` flag. -/
structure Heap where
  nodes : List NodeData
  locked : Bool

/-- The node stored at address `a` (addresses handed out by the operations
below are always in bounds). -/
def nodeAt (ns : List NodeData) (a : Nat) : NodeData :=
  ns.getD a default

/-- Python dict lookup on an association list. -/
def lookupA {α : Type} : List (String × α) → String → Option α
  | [], _ => none
  | (k, v) :: rest, key => if k = key then some v else lookupA rest key

/-- Python dict assignment on an association list: overwrite the existing
entry, or append a fresh one. -/
def upsertA {α : Type} : List (String × α) → String → α → List (String × α)
  | [], key, v => [(key, v)]
  | (k, w) :: rest, key, v =>
      if k = key then (key, v) :: rest else (k, w) :: upsertA rest key v

/-- Replace node `a`'s `_attributes` entry for `key` by `v` (the write in
`__setitem__` and in `__getitem__`'s lazy-creation branch). -/
def writeAttr (h : Heap) (a : Nat) (key : String) (v : Value) : Heap :=
  let nd := nodeAt h.nodes a
  { h with nodes := h.nodes.set a { nd with attributes := upsertA nd.attributes key v } }

/-- Message of `UndefinedKeyError` (the source formats `self` via `__str__`,
which returns `_name`). -/
def undefinedKeyMsg (name key : String) : String :=
  "Configuration key not found: " ++ name ++ "." ++ key

/-- Message of `LockedError`. -/
def lockedMsg (key name : String) : String :=
  "Cannot set key " ++ key ++ " for locked " ++ name

/-- Configuration of `ConfigStore.__getitem__`: return the stored child if
present; on a miss, fail with `UndefinedKeyError` when the tree is locked,
otherwise allocate a fresh empty child under `key` (name and path derived
from the parent), store it, and return it. -/
def getItem (h : Heap) (a : Nat) (key : String) : Except PyErr Value × Heap :=
  match lookupA (nodeAt h.nodes a).attributes key with
  | some v => (.ok v, h)
  | none =>
    if h.locked then
      (.error (.undefinedKeyError (undefinedKeyMsg (nodeAt h.nodes a).name key)), h)
    else
      let b := h.nodes.length
      let child : NodeData :=
        { name := (nodeAt h.nodes a).name ++ "." ++ key
          path := (nodeAt h.nodes a).path ++ [key]
          attributes := [] }
      let h1 := writeAttr h a key (.ref b)
      (.ok (.ref b), { h1 with nodes := h1.nodes ++ [child] })

/-- Configuration of `ConfigStore.__setitem__`: fail with `LockedError` when
the tree is locked, otherwise store `v` under `key`. -/
def setItem (h : Heap) (a : Nat) (key : String) (v : Value) :
    Except PyErr Unit × Heap :=
  if h.locked then
    (.error (.lockedError (lockedMsg key (nodeAt h.nodes a).name)), h)
  else
    (.ok (), writeAttr h a key v)

/-- Non-underscore attribute names resolvable on the `ConfigStore` class
itself (methods and the `locked` property); every inherited attribute of
`object` starts with an underscore.  `hasattr(ConfigStore, key)` holds for a
non-underscore `key` exactly when `key` is in this list. -/
def classAttrNames : List String :=
  ["locked", "clear", "update_dict", "to_dict", "iteritems", "items"]

/-- Python `key.startswith('_')`. -/
def startsWithUnderscore (key : String) : Bool :=
  key.toList.head? = some '_'

/-- Attribute read on a `ConfigStore` (`__getattr__` together with normal
lookup): keys starting with an underscore, and names present on the
`ConfigStore` class, are resolved by ordinary Python attribute lookup
outside the children dict (modelled as `none`); every other key is routed
to `__getitem__`. -/
def getAttrDispatch (h : Heap) (a : Nat) (key : String) :
    Option (Except PyErr Value × Heap) :=
  if startsWithUnderscore key || classAttrNames.contains key then none
  else some (getItem h a key)

/-- Attribute write on a `ConfigStore` (`__setattr__`): keys starting with
an underscore, and names present on the `ConfigStore` class, go through
`super().__setattr__` (instance slots, or the `locked` property setter),
outside the children dict (modelled as `none`); every other key is routed
to `__setitem__`. -/
def setAttrDispatch (h : Heap) (a : Nat) (key : String) (v : Value) :
    Option (Except PyErr Unit × Heap) :=
  if startsWithUnderscore key || classAttrNames.contains key then none
  else some (setItem h a key v)

/-- Configuration of `ConfigStore.update_dict`: for each `(key, value)` of the
dict in order, recurse via `self[key].update_dict(value)` when `value` is a
dict (an `AttributeError` when `self[key]` is not a `ConfigStore`), and
store via `self[key] = value` otherwise. -/
def update_dict (h : Heap) (a : Nat) : List (String × Yaml) →
    Except PyErr Unit × Heap
  | [] => (.ok (), h)
  | (key, Yaml.vMap m) :: rest =>
    (match getItem h a key with
     | (.error e, h') => (.error e, h')
     | (.ok (.prim _), h') => (.error .attributeError, h')
     | (.ok (.ref b), h') =>
       match update_dict h' b m with
       | (.error e, h'') => (.error e, h'')
       | (.ok (), h'') => update_dict h'' a rest)
  | (key, y) :: rest =>
    (match setItem h a key (.prim y) with
     | (.error e, h') => (.error e, h')
     | (.ok (), h') => update_dict h' a rest)
termination_by entries => sizeOf entries

/-- Renders a list of `_attributes` entries for `to_dict`: plain values are
returned as stored, child `ConfigStore`s are converted recursively.  The
reference structure is acyclic because a child is always freshly allocated
at the end of the heap, so every reference points upward (`a < b`); the
guard makes the recursion well founded and never fails on reachable
heaps. -/
def toDictAux (ns : List NodeData) (a : Nat) :
    List (String × Value) → List (String × Yaml)
  | [] => []
  | (k, .prim y) :: rest => (k, y) :: toDictAux ns a rest
  | (k, .ref b) :: rest =>
    (k, if _hb : a < b ∧ b < ns.length then
          Yaml.vMap (toDictAux ns b (nodeAt ns b).attributes)
        else Yaml.vMap []) :: toDictAux ns a rest
termination_by entries => (ns.length - a, entries.length)
decreasing_by all_goals (simp_wf; omega)

/-- Configuration of `ConfigStore.to_dict`: deep snapshot of the subtree rooted
at `a` as a nested mapping. -/
def to_dict (h : Heap) (a : Nat) : Yaml :=
  .vMap (toDictAux h.nodes a (nodeAt h.nodes a).attributes)

example : getItem { nodes := [default], locked := false } 0 "x"
    = (.ok (.ref 1),
       { nodes := [{ name := "", path := [], attributes := [("x", .ref 1)] },
                   { name := ".x", path := ["x"], attributes := [] }],
         locked := false }) := by
  rfl

/-- Configuration of `ConfigStore.clear`.  The source reads `self.attributes`
(not the real field `self._attributes`), which normal lookup does not find,
so `__getattr__` routes it to `self['attributes']`.  Whatever that returns
then receives the `.clear()` call: a child `ConfigStore` repeats the same
dance (fuel models Python's recursion limit), a plain dict value is emptied
in place, and any other plain value has no `clear` method. -/
def storeClear (fuel : Nat) (h : Heap) (a : Nat) : Except PyErr Unit × Heap :=
  match fuel with
  | 0 => (.error .recursionError, h)
  | fuel + 1 =>
    match getItem h a "attributes" with
    | (.error e, h') => (.error e, h')
    | (.ok (.ref b), h') => storeClear fuel h' b
    | (.ok (.prim (.vMap _)), h') =>
        (.ok (), writeAttr h' a "attributes" (.prim (.vMap [])))
    | (.ok (.prim _), h') => (.error .attributeError, h')

/-- Python's default recursion limit, the fuel for `storeClear`. -/
def recursionLimit : Nat := 1000

/-- One recorded registration (`Configuration.register_parsed` dict literal). -/
structure Directive where
  config : Option Yaml
  filepath : Option String
  raw : Bool
  optional : Bool
  nested : Option String

/-- Python truthiness of the `filepath` value (`None` and `''` are falsy). -/
def truthyOptStr : Option String → Bool
  | none => false
  | some s => !(s = "")

/-- Python truthiness of a YAML value (`None`, `False`, `0`, `''` and empty
containers are falsy). -/
def truthyYaml : Yaml → Bool
  | .vNull => false
  | .vBool b => b
  | .vInt n => !(n = 0)
  | .vStr s => !(s = "")
  | .vMap m => !m.isEmpty

/-- Python truthiness of the `config` value. -/
def truthyOptYaml : Option Yaml → Bool
  | none => false
  | some y => truthyYaml y

/-- The keys of a YAML mapping, in insertion order. -/
def yamlKeys (m : List (String × Yaml)) : List String := m.map Prod.fst

/-- Whether `sub` occurs as a contiguous substring (Python `sub in s`). -/
def charsInfix (sub : List Char) : List Char → Bool
  | [] => sub.isEmpty
  | c :: rest => List.isPrefixOf sub (c :: rest) || charsInfix sub rest

/-- Python `env in config`: key membership for a dict, substring test for a
string, and a `TypeError` for non-iterable scalars. -/
def pyInY (env : String) : Yaml → Except PyErr Bool
  | .vMap m => .ok ((yamlKeys m).contains env)
  | .vStr s => .ok (charsInfix env.toList s.toList)
  | _ => .error .typeError

/-- Python `config[env]` on a YAML value: dict lookup (a `KeyError` when the
key is absent), and a `TypeError` for every non-dict value (string indices
must be integers). -/
def pySubscriptY (y : Yaml) (key : String) : Except PyErr Yaml :=
  match y with
  | .vMap m =>
    (match lookupA m key with
     | some v => .ok v
     | none => .error .keyError)
  | _ => .error .typeError

/-- Message of `MissingEnvironment` (the source's HINT sentence is elided). -/
def missingEnvMsg (env filepath : String) : String :=
  "Current environment " ++ env ++ " not defined in config file " ++ filepath

/-- Evaluation of the guard `not raw and filepath and config is not None and
self.env not in config` in `mixin_config`, with Python's short-circuiting
and the possible `TypeError` from `in` on a scalar document. -/
def envAbsent (env : String) (d : Directive) : Except PyErr Bool :=
  if d.raw then .ok false
  else if !truthyOptStr d.filepath then .ok false
  else
    match d.config with
    | none => .ok false
    | some y => (pyInY env y).map (fun b => !b)

/-- Selection of the effective mapping to merge (`choice`) in
`mixin_config`: the whole document when `raw`; `config[env]` for a truthy
file-sourced document; an empty dict for a file-sourced falsy document; and
the document itself otherwise (in-memory registration). -/
def selectChoice (env : String) (d : Directive) : Except PyErr (Option Yaml) :=
  if d.raw then .ok d.config
  else if truthyOptStr d.filepath && truthyOptYaml d.config then
    match d.config with
    | some y => (pySubscriptY y env).map some
    | none => .error .typeError
  else if truthyOptStr d.filepath then .ok (some (.vMap []))
  else .ok d.config

/-- The loop `for key in directive['nested'].split('.'): base_config =
base_config[key]`: navigation through `ConfigStore` children via
`__getitem__`, and plain-dict/scalar subscripting when an intermediate
value is not a `ConfigStore`. -/
def walkKeys (h : Heap) (v : Value) : List String → Except PyErr Value × Heap
  | [] => (.ok v, h)
  | k :: rest =>
    match v with
    | .ref b =>
      (match getItem h b k with
       | (.error e, h') => (.error e, h')
       | (.ok v', h') => walkKeys h' v' rest)
    | .prim y =>
      (match pySubscriptY y k with
       | .error e => (.error e, h)
       | .ok y' => walkKeys h (.prim y') rest)

/-- Resolution of the mount point: the root when `nested` is `None`,
otherwise the walk over the dotted path's segments. -/
def walkNested (h : Heap) (v : Value) : Option String → Except PyErr Value × Heap
  | none => (.ok v, h)
  | some s => walkKeys h v (s.splitOn ".")

/-- The call `base_config.update_dict(choice)`: an `AttributeError` when the
mount point is not a `ConfigStore` or when `choice` has no `iteritems`
(it is `None` or a scalar). -/
def mergeChoice (h : Heap) (base : Value) (choice : Option Yaml) :
    Except PyErr Unit × Heap :=
  match base with
  | .prim _ => (.error .attributeError, h)
  | .ref b =>
    match choice with
    | some (.vMap m) => update_dict h b m
    | _ => (.error .attributeError, h)

/-- Configuration of `Configuration.mixin_config`: skip an optional directive
with no document; fail with `MissingEnvironment` when a non-raw
file-sourced non-null document lacks the active environment key; select
the effective mapping; then unlock the tree, resolve the mount point,
merge, and re-lock.  The re-lock happens only on the success path — an
exception raised after the unlock leaves the tree unlocked.  (When the
`MissingEnvironment` branch is reached, `filepath` is a non-empty string,
so the `getD` fallback never fires.) -/
def mixin_config (env : String) (h : Heap) (d : Directive) :
    Except PyErr Unit × Heap :=
  if d.optional && d.config.isNone then (.ok (), h)
  else
    match envAbsent env d with
    | .error e => (.error e, h)
    | .ok true =>
        (.error (.missingEnvironment (missingEnvMsg env (d.filepath.getD "None"))), h)
    | .ok false =>
      match selectChoice env d with
      | .error e => (.error e, h)
      | .ok choice =>
        let h1 : Heap := { h with locked := false }
        match walkNested h1 (.ref 0) d.nested with
        | (.error e, h2) => (.error e, h2)
        | (.ok base, h2) =>
          match mergeChoice h2 base choice with
          | (.error e, h3) => (.error e, h3)
          | (.ok (), h3) => (.ok (), { h3 with locked := true })

/-- Process-wide state of `Configuration`: the active environment, the
recorded directives in registration order, and the root `ConfigStore`
hierarchy (the root is address 0 of the heap). -/
structure Configuration where
  env : String
  directives : List Directive
  heap : Heap

/-- State after `Configuration.__init__` with active environment `env`
(environment discovery reads `/etc/flags/env` or falls back to `local`;
the file system is outside the model, so the result is a parameter): an
empty root node named `config`, and the tree locked. -/
def initialConfiguration (env : String) : Configuration :=
  { env := env
    directives := []
    heap := { nodes := [{ name := "config", path := [], attributes := [] }],
              locked := true } }

/-- Configuration of `Configuration.register_parsed`: append the directive to
the record, then immediately apply it (the directive stays recorded even
when the application raises). -/
def register_parsed (c : Configuration) (config : Option Yaml)
    (filepath : Option String) (raw optional : Bool) (nested : Option String) :
    Except PyErr Unit × Configuration :=
  let d : Directive :=
    { config := config, filepath := filepath, raw := raw,
      optional := optional, nested := nested }
  let c1 := { c with directives := c.directives ++ [d] }
  match mixin_config c1.env c1.heap d with
  | (r, h') => (r, { c1 with heap := h' })

/-- Configuration of `Configuration.register`.  File reading and YAML parsing
are external collaborators, so they enter as parameters: whether the file
exists, and the parse outcome for its contents.  A relative path fails with
the generic `Error` before any I/O.  On a parse failure the source's
handler evaluates `sys.exc_info()`, but the module never imports `sys`, so
the handler itself raises `NameError` — the `ConfigFileError` raise after
it is dead code. -/
def register (c : Configuration) (filepath : String) (raw optional : Bool)
    (nested : Option String) (fileExists : Bool)
    (parsed : Except String (Option Yaml)) : Except PyErr Unit × Configuration :=
  if !(filepath.toList.head? = some '/') then
    (.error (.genericError ("Register only accepts absolute paths, not " ++ filepath)), c)
  else if optional && !fileExists then
    register_parsed c none (some filepath) raw optional nested
  else if !fileExists then (.error .ioError, c)
  else
    match parsed with
    | .error _ => (.error (.nameError "sys"), c)
    | .ok config => register_parsed c config (some filepath) raw optional nested

/-- The replay loop of `reapply_config`: apply each recorded directive in
registration order, stopping at the first exception. -/
def applyDirectives (env : String) (h : Heap) :
    List Directive → Except PyErr Unit × Heap
  | [] => (.ok (), h)
  | d :: rest =>
    match mixin_config env h d with
    | (.error e, h') => (.error e, h')
    | (.ok (), h') => applyDirectives env h' rest

/-- Configuration of `Configuration.reapply_config`: clear the tree, then
replay every recorded directive against the current environment. -/
def reapply_config (c : Configuration) : Except PyErr Unit × Configuration :=
  match storeClear recursionLimit c.heap 0 with
  | (.error e, h') => (.error e, { c with heap := h' })
  | (.ok (), h') =>
    match applyDirectives c.env h' c.directives with
    | (r, h'') => (r, { c with heap := h'' })

/-- Configuration of `Configuration.set_env`: change the active environment,
then rebuild the whole tree from the recorded directives. -/
def set_env (c : Configuration) (env : String) : Except PyErr Unit × Configuration :=
  reapply_config { c with env := env }

/-- An invariant of every heap reachable through the `Configuration` API:
child references always point to strictly later allocated, in-bounds nodes
(a child is created fresh at the end of the heap), so the reference
structure is acyclic. -/
def GoodHeap (ns : List NodeData) : Prop :=
  ∀ b, b < ns.length → ∀ k c, (k, Value.ref c) ∈ (nodeAt ns b).attributes →
    b < c ∧ c < ns.length

theorem lookupA_append_none {α : Type} {l1 : List (String × α)} {k : String}
    (l2 : List (String × α)) (h : lookupA l1 k = none) :
    lookupA (l1 ++ l2) k = lookupA l2 k := by
  induction l1 with
  | nil => simp [lookupA]
  | cons hd tl ih =>
    obtain ⟨k', v⟩ := hd
    by_cases hk : k' = k
    · simp [lookupA, hk] at h
    · simp only [lookupA, hk, if_false, List.cons_append] at h ⊢
      exact ih h

theorem upsertA_of_lookup_none {α : Type} {l : List (String × α)} {k : String}
    (v : α) (h : lookupA l k = none) : upsertA l k v = l ++ [(k, v)] := by
  induction l with
  | nil => simp [upsertA]
  | cons hd tl ih =>
    obtain ⟨k', w⟩ := hd
    by_cases hk : k' = k
    · simp [lookupA, hk] at h
    · simp only [lookupA, hk, if_false, upsertA, List.cons_append] at h ⊢
      rw [ih h]

theorem lookupA_singleton_self {α : Type} (k : String) (v : α) :
    lookupA [(k, v)] k = some v := by
  simp [lookupA]

theorem nodeAt_set_self {ns : List NodeData} {a : Nat} (d : NodeData)
    (ha : a < ns.length) : nodeAt (ns.set a d) a = d := by
  simp [nodeAt, List.getD_eq_getElem?_getD, List.getElem?_set_self ha]

theorem nodeAt_set_ne {ns : List NodeData} {a b : Nat} (d : NodeData)
    (hne : b ≠ a) : nodeAt (ns.set a d) b = nodeAt ns b := by
  simp [nodeAt, List.getD_eq_getElem?_getD, List.getElem?_set_ne (Ne.symm hne)]

theorem nodeAt_append_left {ns ms : List NodeData} {b : Nat}
    (hb : b < ns.length) : nodeAt (ns ++ ms) b = nodeAt ns b := by
  simp [nodeAt, List.getD_eq_getElem?_getD, List.getElem?_append_left hb]

theorem nodeAt_concat_length (ns : List NodeData) (d : NodeData) :
    nodeAt (ns ++ [d]) ns.length = d := by
  simp [nodeAt, List.getD_eq_getElem?_getD, List.getElem?_concat_length]

theorem nodeAt_concat_of_length {ns : List NodeData} {L : Nat} (d : NodeData)
    (h : ns.length = L) : nodeAt (ns ++ [d]) L = d := by
  subst h; exact nodeAt_concat_length ns d

mutual

/-- Well-formed YAML value: every mapping in it has pairwise distinct keys
(Python dicts cannot hold duplicate keys, so every value produced by the
YAML collaborator is well formed). -/
def wfY : Yaml → Bool
  | .vNull => true
  | .vBool _ => true
  | .vInt _ => true
  | .vStr _ => true
  | .vMap m => wfEntries m

/-- Well-formed mapping entries: distinct keys, well-formed values. -/
def wfEntries : List (String × Yaml) → Bool
  | [] => true
  | (k, y) :: rest => !((yamlKeys rest).contains k) && wfY y && wfEntries rest

end

/-- Extracts a mapping's entries (used to case on the shape of a value). -/
def isMapY : Yaml → Option (List (String × Yaml))
  | .vMap m => some m
  | _ => none

theorem isMapY_some {y : Yaml} {m : List (String × Yaml)}
    (h : isMapY y = some m) : y = .vMap m := by
  cases y <;> simp_all [isMapY]

theorem mem_upsertA {α : Type} {l : List (String × α)} {k : String} {v : α}
    {p : String × α} : p ∈ upsertA l k v → p ∈ l ∨ p = (k, v) := by
  induction l with
  | nil =>
    intro h
    simp [upsertA] at h
    simp [h]
  | cons hd tl ih =>
    intro h
    obtain ⟨k', w⟩ := hd
    by_cases hk : k' = k
    · simp only [upsertA, hk, if_true] at h
      rcases List.mem_cons.1 h with h | h
      · right; simp [h]
      · left; exact List.mem_cons_of_mem _ h
    · simp only [upsertA, hk, if_false] at h
      rcases List.mem_cons.1 h with h | h
      · left; simp [h]
      · rcases ih h with h' | h'
        · left; exact List.mem_cons_of_mem _ h'
        · right; exact h'

/-- Allocating a fresh child at the end of the heap preserves the
upward-reference invariant. -/
theorem GoodHeap_extend {ns ns2 : List NodeData} {a : Nat} {key : String}
    (hg : GoodHeap ns) (ha : a < ns.length)
    (hlen2 : ns2.length = ns.length + 1)
    (hfr : ∀ b, b < ns.length → b ≠ a → nodeAt ns2 b = nodeAt ns b)
    (hattr : (nodeAt ns2 a).attributes
      = (nodeAt ns a).attributes ++ [(key, .ref ns.length)])
    (hnew : (nodeAt ns2 ns.length).attributes = []) : GoodHeap ns2 := by
  intro b hb kk c hm
  by_cases hba : b = a
  · subst hba
    rw [hattr] at hm
    rcases List.mem_append.1 hm with h' | h'
    · have := hg b ha kk c h'
      omega
    · simp at h'
      obtain ⟨h1, h2⟩ := h'
      omega
  · by_cases hbl : b = ns.length
    · subst hbl
      rw [hnew] at hm
      simp at hm
    · have hb' : b < ns.length := by omega
      rw [hfr b hb' hba] at hm
      have := hg b hb' kk c hm
      omega

/-- Writing a plain (non-reference) value into a node preserves the
upward-reference invariant. -/
theorem GoodHeap_set {ns ns2 : List NodeData} {a : Nat} {key : String} {y : Yaml}
    (hg : GoodHeap ns) (ha : a < ns.length)
    (hlen2 : ns2.length = ns.length)
    (hfr : ∀ b, b < ns.length → b ≠ a → nodeAt ns2 b = nodeAt ns b)
    (hattr : (nodeAt ns2 a).attributes
      = upsertA (nodeAt ns a).attributes key (.prim y)) : GoodHeap ns2 := by
  intro b hb kk c hm
  rw [hlen2] at hb ⊢
  by_cases hba : b = a
  · subst hba
    rw [hattr] at hm
    rcases mem_upsertA hm with h' | h'
    · exact hg b hb kk c h'
    · simp at h'
  · rw [hfr b hb hba] at hm
    exact hg b hb kk c hm

/-- Rendering a subtree with `to_dict` is unaffected by changes to nodes
outside the subtree: on a good heap, the subtree below `x` only involves
nodes above `x`, so modifying node `a < x` and appending fresh nodes keeps
the rendering intact.  (`k` bounds `ns.length - x` for the recursion.) -/
theorem toDictAux_stable_aux :
    ∀ (k : Nat) (ns ns' : List NodeData) (a : Nat),
      ns.length ≤ ns'.length →
      (∀ b, b < ns.length → b ≠ a → nodeAt ns' b = nodeAt ns b) →
      GoodHeap ns →
      ∀ x, ns.length - x ≤ k → a < x → x < ns.length →
        toDictAux ns' x (nodeAt ns' x).attributes
          = toDictAux ns x (nodeAt ns x).attributes := by
  intro k
  induction k with
  | zero =>
    intro ns ns' a _ _ _ x hk hax hx
    omega
  | succ k ih =>
    intro ns ns' a hlen hfr hg x hk hax hx
    have hnode : nodeAt ns' x = nodeAt ns x := hfr x hx (by omega)
    rw [hnode]
    have hrefs : ∀ kk c, (kk, Value.ref c) ∈ (nodeAt ns x).attributes →
        x < c ∧ c < ns.length := hg x hx
    generalize (nodeAt ns x).attributes = e at hrefs ⊢
    induction e with
    | nil => simp [toDictAux]
    | cons hd rest ihe =>
      obtain ⟨kk, v⟩ := hd
      have hrest : ∀ kk c, (kk, Value.ref c) ∈ rest → x < c ∧ c < ns.length :=
        fun kk c hm => hrefs kk c (List.mem_cons_of_mem _ hm)
      rcases v with y | c
      · simp only [toDictAux]
        rw [ihe hrest]
      · have hc := hrefs kk c (List.mem_cons_self _ _)
        simp only [toDictAux]
        rw [dif_pos ⟨hc.1, lt_of_lt_of_le hc.2 hlen⟩, dif_pos ⟨hc.1, hc.2⟩,
            ihe hrest, ih ns ns' a hlen hfr hg c (by omega) (by omega) hc.2]

/-- Stability of subtree rendering under out-of-subtree heap changes. -/
theorem toDictAux_stable (ns ns' : List NodeData) (a : Nat)
    (hlen : ns.length ≤ ns'.length)
    (hfr : ∀ b, b < ns.length → b ≠ a → nodeAt ns' b = nodeAt ns b)
    (hg : GoodHeap ns) (x : Nat) (hax : a < x) (hx : x < ns.length) :
    toDictAux ns' x (nodeAt ns' x).attributes
      = toDictAux ns x (nodeAt ns x).attributes :=
  toDictAux_stable_aux ns.length ns ns' a hlen hfr hg x (by omega) hax hx

/-- Behaviour of `__getitem__` on a missing key while unlocked: the fresh
child is allocated at the end of the heap, the parent gains one entry, and
nothing else changes. -/
theorem getItem_create {h : Heap} {a : Nat} {key : String}
    (ha : a < h.nodes.length) (hl : h.locked = false)
    (hk : lookupA (nodeAt h.nodes a).attributes key = none) :
    ∃ h2 : Heap,
      getItem h a key = (.ok (.ref h.nodes.length), h2) ∧
      h2.locked = false ∧
      h2.nodes.length = h.nodes.length + 1 ∧
      (∀ b, b < h.nodes.length → b ≠ a → nodeAt h2.nodes b = nodeAt h.nodes b) ∧
      (nodeAt h2.nodes a).attributes
        = (nodeAt h.nodes a).attributes ++ [(key, .ref h.nodes.length)] ∧
      (nodeAt h2.nodes a).name = (nodeAt h.nodes a).name ∧
      (nodeAt h2.nodes h.nodes.length).attributes = [] := by
  refine ⟨⟨(h.nodes.set a
      { nodeAt h.nodes a with
          attributes := (nodeAt h.nodes a).attributes ++ [(key, .ref h.nodes.length)] })
      ++ [{ name := (nodeAt h.nodes a).name ++ "." ++ key,
            path := (nodeAt h.nodes a).path ++ [key], attributes := [] }], false⟩,
    ?_, rfl, ?_, ?_, ?_, ?_, ?_⟩
  · simp [getItem, hk, hl, writeAttr, upsertA_of_lookup_none _ hk]
  · simp
  · intro b hb hba
    rw [nodeAt_append_left (by simp; omega), nodeAt_set_ne _ hba]
  · rw [nodeAt_append_left (by simp; omega), nodeAt_set_self _ ha]
  · rw [nodeAt_append_left (by simp; omega), nodeAt_set_self _ ha]
  · rw [nodeAt_concat_of_length _ (by simp)]

/-- Unfolding of `update_dict` on a non-mapping head value (the source's
`else` branch storing a leaf via `self[key] = value`). -/
theorem update_dict_cons_notmap (h : Heap) (a : Nat) (k : String) (y : Yaml)
    (rest : List (String × Yaml)) (hy : isMapY y = none) :
    update_dict h a ((k, y) :: rest)
      = (match setItem h a k (.prim y) with
         | (.error e, h') => (.error e, h')
         | (.ok (), h') => update_dict h' a rest) := by
  cases y with
  | vMap m => simp [isMapY] at hy
  | vNull => simp [update_dict]
  | vBool b => simp [update_dict]
  | vInt n => simp [update_dict]
  | vStr s => simp [update_dict]

/-- Behaviour of `__setitem__` while unlocked: the entry is overwritten or
appended, and nothing else changes. -/
theorem setItem_write {h : Heap} {a : Nat} (key : String) (v : Value)
    (ha : a < h.nodes.length) (hl : h.locked = false) :
    ∃ h2 : Heap,
      setItem h a key v = (.ok (), h2) ∧
      h2.locked = false ∧
      h2.nodes.length = h.nodes.length ∧
      (∀ b, b < h.nodes.length → b ≠ a → nodeAt h2.nodes b = nodeAt h.nodes b) ∧
      (nodeAt h2.nodes a).attributes = upsertA (nodeAt h.nodes a).attributes key v ∧
      (nodeAt h2.nodes a).name = (nodeAt h.nodes a).name := by
  refine ⟨⟨h.nodes.set a
      { nodeAt h.nodes a with
          attributes := upsertA (nodeAt h.nodes a).attributes key v }, false⟩,
    ?_, rfl, by simp, ?_, ?_, ?_⟩
  · simp [setItem, hl, writeAttr]
  · intro b hb hba
    rw [nodeAt_set_ne _ hba]
  · rw [nodeAt_set_self _ ha]
  · rw [nodeAt_set_self _ ha]

/-- Specification of `update_dict` merging a well-formed mapping whose keys
are all absent from the target node, on an unlocked good heap: the merge
succeeds, appends one entry per key to the target node, only creates fresh
nodes (every other node is untouched), and the new entries render back to
the merged mapping under `to_dict` — the round-trip core.  (`n` bounds
`sizeOf m` for the nested recursion.) -/
theorem update_dict_spec :
    ∀ (n : Nat) (m : List (String × Yaml)), sizeOf m ≤ n →
      ∀ (h : Heap) (a : Nat),
        a < h.nodes.length → h.locked = false → GoodHeap h.nodes →
        (∀ k, k ∈ yamlKeys m → lookupA (nodeAt h.nodes a).attributes k = none) →
        wfEntries m = true →
        ∃ (h2 : Heap) (new : List (String × Value)),
          update_dict h a m = (.ok (), h2) ∧
          h2.locked = false ∧
          h.nodes.length ≤ h2.nodes.length ∧
          (∀ b, b < h.nodes.length → b ≠ a → nodeAt h2.nodes b = nodeAt h.nodes b) ∧
          GoodHeap h2.nodes ∧
          (nodeAt h2.nodes a).attributes = (nodeAt h.nodes a).attributes ++ new ∧
          toDictAux h2.nodes a new = m := by
  intro n
  induction n with
  | zero =>
    intro m hm
    exact absurd hm (by cases m <;> simp_arith)
  | succ n ih =>
    intro m hm h a ha hl hg hlk hwf
    cases m with
    | nil =>
      exact ⟨h, [], by simp [update_dict], hl, le_refl _, fun b _ _ => rfl, hg,
        by simp, by simp [toDictAux]⟩
    | cons hd rest =>
      obtain ⟨k, y⟩ := hd
      simp only [wfEntries, Bool.and_eq_true] at hwf
      obtain ⟨⟨hknotin, hwy⟩, hwrest⟩ := hwf
      have hknot : k ∉ yamlKeys rest := by simpa using hknotin
      have hrest_size : sizeOf rest ≤ n := by
        simp only [List.cons.sizeOf_spec] at hm; omega
      have hk_lookup : lookupA (nodeAt h.nodes a).attributes k = none :=
        hlk k (List.mem_cons_self _ _)
      have hmem_rest : ∀ k', k' ∈ yamlKeys rest → k' ∈ yamlKeys ((k, y) :: rest) :=
        fun k' hk' => List.mem_cons_of_mem _ hk'
      cases hmy : isMapY y with
      | some m' =>
        have hym : y = .vMap m' := isMapY_some hmy
        subst hym
        have hm'_size : sizeOf m' ≤ n := by
          simp only [List.cons.sizeOf_spec, Prod.mk.sizeOf_spec,
            Yaml.vMap.sizeOf_spec] at hm
          omega
        obtain ⟨hA, hgiA, hAl, hAlen, hAfr, hAattr, hAname, hAnew⟩ :=
          getItem_create ha hl hk_lookup
        have hgA : GoodHeap hA.nodes := GoodHeap_extend hg ha hAlen hAfr hAattr hAnew
        have hLlt : h.nodes.length < hA.nodes.length := by omega
        obtain ⟨g, new1, hupd1, hgl, hglen, hgfr, hgood, hgattr, hgrender⟩ :=
          ih m' hm'_size hA h.nodes.length hLlt hAl hgA
            (fun k' _ => by rw [hAnew]; rfl) (by simpa [wfY] using hwy)
        have ha_g : a < g.nodes.length := by omega
        have hfr_aA : nodeAt g.nodes a = nodeAt hA.nodes a :=
          hgfr a (by omega) (by omega)
        have hlk_rest : ∀ k', k' ∈ yamlKeys rest →
            lookupA (nodeAt g.nodes a).attributes k' = none := by
          intro k' hk'
          rw [hfr_aA, hAattr]
          rw [lookupA_append_none _ (hlk k' (hmem_rest k' hk'))]
          have hkk : ¬(k = k') := fun he => hknot (he ▸ hk')
          simp [lookupA, hkk]
        obtain ⟨h2, new2, hupd2, h2l, h2len, h2fr, h2good, h2attr, h2render⟩ :=
          ih rest hrest_size g a ha_g hgl hgood hlk_rest hwrest
        refine ⟨h2, (k, .ref h.nodes.length) :: new2, ?_, h2l, by omega, ?_,
          h2good, ?_, ?_⟩
        · simp only [update_dict, hgiA, hupd1, hupd2]
        · intro b hb hba
          rw [h2fr b (by omega) hba, hgfr b (by omega) (by omega), hAfr b hb hba]
        · rw [h2attr, hfr_aA, hAattr]
          simp [List.append_assoc]
        · have hstab := toDictAux_stable g.nodes h2.nodes a h2len h2fr hgood
            h.nodes.length (by omega) (by omega)
          have hhead : toDictAux h2.nodes h.nodes.length
              (nodeAt h2.nodes h.nodes.length).attributes = m' := by
            rw [hstab]
            have hnew1 : (nodeAt g.nodes h.nodes.length).attributes = new1 := by
              rw [hgattr, hAnew]; simp
            rw [hnew1, hgrender]
          simp only [toDictAux]
          rw [dif_pos ⟨(show a < h.nodes.length from ha),
                (show h.nodes.length < h2.nodes.length by omega)⟩,
              hhead, h2render]
      | none =>
        obtain ⟨hA, hsetA, hAl, hAlen, hAfr, hAattr, hAname⟩ :=
          setItem_write k (.prim y) ha hl
        have hupA : (nodeAt hA.nodes a).attributes
            = (nodeAt h.nodes a).attributes ++ [(k, .prim y)] := by
          rw [hAattr, upsertA_of_lookup_none _ hk_lookup]
        have hgA : GoodHeap hA.nodes := GoodHeap_set hg ha hAlen hAfr hAattr
        have ha_A : a < hA.nodes.length := by omega
        have hlk_rest : ∀ k', k' ∈ yamlKeys rest →
            lookupA (nodeAt hA.nodes a).attributes k' = none := by
          intro k' hk'
          rw [hupA]
          rw [lookupA_append_none _ (hlk k' (hmem_rest k' hk'))]
          have hkk : ¬(k = k') := fun he => hknot (he ▸ hk')
          simp [lookupA, hkk]
        obtain ⟨h2, new2, hupd2, h2l, h2len, h2fr, h2good, h2attr, h2render⟩ :=
          ih rest hrest_size hA a ha_A hAl hgA hlk_rest hwrest
        refine ⟨h2, (k, .prim y) :: new2, ?_, h2l, by omega, ?_, h2good, ?_, ?_⟩
        · rw [update_dict_cons_notmap h a k y rest hmy]
          simp only [hsetA, hupd2]
        · intro b hb hba
          rw [h2fr b (by omega) hba, hAfr b hb hba]
        · rw [h2attr, hupA]
          simp [List.append_assoc]
        · simp only [toDictAux]
          rw [h2render]

/-- On the success path `mixin_config` always ends with the re-lock, and the
skip path for an optional absent document leaves the heap untouched, so a
successful application of a directive to a locked heap ends locked. -/
theorem mixin_ok_locked (env : String) (h : Heap) (d : Directive)
    (hl : h.locked = true) (hok : (mixin_config env h d).1 = .ok ()) :
    (mixin_config env h d).2.locked = true := by
  by_cases hopt : (d.optional && d.config.isNone) = true
  · simp [mixin_config, hopt, hl]
  · rcases he : envAbsent env d with e | b
    · simp [mixin_config, hopt, he] at hok
    · cases b
      · rcases hc : selectChoice env d with e | choice
        · simp [mixin_config, hopt, he, hc] at hok
        · rcases hw : walkNested { h with locked := false } (.ref 0) d.nested with ⟨r2, h2⟩
          rcases r2 with e | base
          · simp [mixin_config, hopt, he, hc, hw] at hok
          · rcases hm : mergeChoice h2 base choice with ⟨r3, h3⟩
            rcases r3 with e | u
            · simp [mixin_config, hopt, he, hc, hw, hm] at hok
            · simp [mixin_config, hopt, he, hc, hw, hm]
      · simp [mixin_config, hopt, he] at hok

/-- The broken `clear` never touches the shared lock flag. -/
theorem storeClear_locked (fuel : Nat) :
    ∀ (h : Heap) (a : Nat), (storeClear fuel h a).2.locked = h.locked := by
  induction fuel with
  | zero => intro h a; simp [storeClear]
  | succ fuel ih =>
    intro h a
    rcases hg : getItem h a "attributes" with ⟨r, h'⟩
    have hloc : h'.locked = h.locked := by
      rcases hk : lookupA (nodeAt h.nodes a).attributes "attributes" with _ | v
      · by_cases hlk : h.locked = true
        · simp [getItem, hk, hlk] at hg
          rw [← hg.2]
        · simp [getItem, hk, Bool.not_eq_true _ ▸ hlk, writeAttr] at hg
          simp [Bool.not_eq_true] at hlk
          simp [hlk, ← hg.2]
      · simp [getItem, hk] at hg
        rw [← hg.2]
    rcases r with e | v
    · simp [storeClear, hg, hloc]
    · rcases v with y | b
      · rcases y with _ | b' | n | s | m <;> simp [storeClear, hg, writeAttr, hloc]
      · simp [storeClear, hg, ih h' b, hloc]

/-- Replaying directives over a locked heap ends locked when it succeeds. -/
theorem applyDirectives_ok_locked (env : String) :
    ∀ (ds : List Directive) (h : Heap), h.locked = true →
      (applyDirectives env h ds).1 = .ok () →
      (applyDirectives env h ds).2.locked = true := by
  intro ds
  induction ds with
  | nil => intro h hl _; simpa [applyDirectives] using hl
  | cons d rest ih =>
    intro h hl hok
    rcases hm : mixin_config env h d with ⟨r, h'⟩
    rcases r with e | u
    · simp [applyDirectives, hm] at hok
    · have hl' : h'.locked = true := by
        have := mixin_ok_locked env h d hl (by rw [hm])
        rwa [hm] at this
      simp only [applyDirectives, hm] at hok ⊢
      exact ih h' hl' hok


/-- C5: for every node of a locked tree and every key absent from its
children, `get(key)` (`__getitem__`) raises `UndefinedKeyError` naming the
full dotted path and the missing key, and leaves the heap — in particular
the node's children mapping — unchanged (no child is created or stored). -/
theorem c5_locked_get_missing (h : Heap) (a : Nat) (key : String)
    (hl : h.locked = true)
    (hk : lookupA (nodeAt h.nodes a).attributes key = none) :
    getItem h a key
      = (.error (.undefinedKeyError (undefinedKeyMsg (nodeAt h.nodes a).name key)), h) := by
  simp [getItem, hk, hl]

/-- Witness for C5 at the freshly initialised (locked) configuration. -/
theorem c5_locked_get_missing_witness :
    (initialConfiguration "local").heap.locked = true ∧
    lookupA (nodeAt (initialConfiguration "local").heap.nodes 0).attributes "db" = none ∧
    getItem (initialConfiguration "local").heap 0 "db"
      = (.error (.undefinedKeyError (undefinedKeyMsg "config" "db")),
         (initialConfiguration "local").heap) :=
  ⟨rfl, rfl, c5_locked_get_missing _ 0 "db" rfl rfl⟩

/-- C6: for every node of a locked tree, every key and every value,
`set(key, value)` (`__setitem__`) raises `LockedError` and leaves the whole
heap unchanged. -/
theorem c6_locked_set (h : Heap) (a : Nat) (key : String) (v : Value)
    (hl : h.locked = true) :
    setItem h a key v
      = (.error (.lockedError (lockedMsg key (nodeAt h.nodes a).name)), h) := by
  simp [setItem, hl]

/-- Witness for C6 at the freshly initialised (locked) configuration. -/
theorem c6_locked_set_witness :
    (initialConfiguration "local").heap.locked = true ∧
    setItem (initialConfiguration "local").heap 0 "db" (.prim (.vInt 7))
      = (.error (.lockedError (lockedMsg "db" "config")),
         (initialConfiguration "local").heap) :=
  ⟨rfl, c6_locked_set _ 0 "db" (.prim (.vInt 7)) rfl⟩

/-- C7: for every node of an unlocked tree and every key absent from its
children, `get(key)` allocates a fresh empty child node at the end of the
heap, stores it under the key, and returns it; a second `get(key)` on the
resulting heap returns the very same node reference and changes nothing. -/
theorem c7_unlocked_get_creates (h : Heap) (a : Nat) (key : String)
    (ha : a < h.nodes.length) (hl : h.locked = false)
    (hk : lookupA (nodeAt h.nodes a).attributes key = none) :
    (getItem h a key).1 = .ok (.ref h.nodes.length) ∧
    (nodeAt (getItem h a key).2.nodes h.nodes.length).attributes = [] ∧
    lookupA (nodeAt (getItem h a key).2.nodes a).attributes key
      = some (.ref h.nodes.length) ∧
    getItem (getItem h a key).2 a key
      = (.ok (.ref h.nodes.length), (getItem h a key).2) := by
  obtain ⟨h2, hgi, hl2, hlen2, hfr, hattr, hname, hnew⟩ := getItem_create ha hl hk
  rw [hgi]
  have hlook : lookupA (nodeAt h2.nodes a).attributes key
      = some (.ref h.nodes.length) := by
    rw [hattr, lookupA_append_none _ hk]
    simp [lookupA]
  exact ⟨rfl, hnew, hlook, by simp [getItem, hlook]⟩

/-- Witness for C7 on a one-node unlocked heap. -/
theorem c7_unlocked_get_creates_witness :
    (0 : Nat) < (Heap.mk [NodeData.mk "config" [] []] false).nodes.length ∧
    (Heap.mk [NodeData.mk "config" [] []] false).locked = false ∧
    lookupA (nodeAt (Heap.mk [NodeData.mk "config" [] []] false).nodes 0).attributes "db"
      = none ∧
    ((getItem (Heap.mk [NodeData.mk "config" [] []] false) 0 "db").1 = .ok (.ref 1) ∧
     (nodeAt (getItem (Heap.mk [NodeData.mk "config" [] []] false) 0 "db").2.nodes 1).attributes = [] ∧
     lookupA (nodeAt (getItem (Heap.mk [NodeData.mk "config" [] []] false) 0 "db").2.nodes 0).attributes "db"
       = some (.ref 1) ∧
     getItem (getItem (Heap.mk [NodeData.mk "config" [] []] false) 0 "db").2 0 "db"
       = (.ok (.ref 1), (getItem (Heap.mk [NodeData.mk "config" [] []] false) 0 "db").2)) :=
  ⟨by simp, rfl, rfl,
   c7_unlocked_get_creates (Heap.mk [NodeData.mk "config" [] []] false) 0 "db"
     (by simp) rfl rfl⟩

/-- C10: for every key that neither starts with an underscore nor names a
`ConfigStore` class attribute, attribute-style access is routed to exactly
the item-style access: `node.key` behaves as `node[key]` (same result, same
errors, same heap), and `node.key = v` behaves as `node[key] = v`. -/
theorem c10_attr_item_equiv (h : Heap) (a : Nat) (key : String) (v : Value)
    (hu : startsWithUnderscore key = false)
    (hc : classAttrNames.contains key = false) :
    getAttrDispatch h a key = some (getItem h a key) ∧
    setAttrDispatch h a key v = some (setItem h a key v) := by
  have hm : key ∉ classAttrNames := by simpa using hc
  simp [getAttrDispatch, setAttrDispatch, hu, hm]

/-- Witness for C10 at the key `db` on the initial configuration. -/
theorem c10_attr_item_equiv_witness :
    startsWithUnderscore "db" = false ∧
    classAttrNames.contains "db" = false ∧
    (getAttrDispatch (initialConfiguration "local").heap 0 "db"
       = some (getItem (initialConfiguration "local").heap 0 "db") ∧
     setAttrDispatch (initialConfiguration "local").heap 0 "db" (.prim (.vInt 7))
       = some (setItem (initialConfiguration "local").heap 0 "db" (.prim (.vInt 7)))) :=
  ⟨by decide, by decide,
   c10_attr_item_equiv (initialConfiguration "local").heap 0 "db" (.prim (.vInt 7))
     (by decide) (by decide)⟩

theorem lookupA_upsertA_self {α : Type} (l : List (String × α)) (k : String) (v : α) :
    lookupA (upsertA l k v) k = some v := by
  induction l with
  | nil => simp [upsertA, lookupA]
  | cons hd tl ih =>
    obtain ⟨k', w⟩ := hd
    by_cases hk : k' = k
    · simp [upsertA, hk, lookupA]
    · simp [upsertA, hk, lookupA, ih]

theorem lookupA_upsertA_ne {α : Type} (l : List (String × α)) {k k' : String}
    (v : α) (hne : ¬(k = k')) :
    lookupA (upsertA l k v) k' = lookupA l k' := by
  induction l with
  | nil => simp [upsertA, lookupA, hne]
  | cons hd tl ih =>
    obtain ⟨k0, w⟩ := hd
    by_cases hk : k0 = k
    · simp [upsertA, hk, lookupA, hne]
    · simp [upsertA, hk, lookupA, ih]

/-- Merging a one-entry mapping whose value is a one-entry mapping with a
leaf, into a node whose key already holds a child reference: the leaf is
written into that child and nothing else changes. -/
theorem merge_pair_leaf (h : Heap) (n : Nat) (k0 k1 : String) (i : Int)
    (hn : n < h.nodes.length)
    (hl : h.locked = false) (b : Nat) (hb : b < h.nodes.length)
    (hlk : lookupA (nodeAt h.nodes n).attributes k0 = some (.ref b))
    (hk10 : ¬(k1 = k0)) :
    (update_dict h n [(k0, .vMap [(k1, .vInt i)])]).1 = .ok () ∧
    (update_dict h n [(k0, .vMap [(k1, .vInt i)])]).2.locked = false ∧
    (update_dict h n [(k0, .vMap [(k1, .vInt i)])]).2.nodes.length = h.nodes.length ∧
    lookupA (nodeAt (update_dict h n [(k0, .vMap [(k1, .vInt i)])]).2.nodes n).attributes k0
      = some (.ref b) ∧
    (nodeAt (update_dict h n [(k0, .vMap [(k1, .vInt i)])]).2.nodes b).attributes
      = upsertA (nodeAt h.nodes b).attributes k1 (.prim (.vInt i)) ∧
    (∀ c, c < h.nodes.length → c ≠ b →
      nodeAt (update_dict h n [(k0, .vMap [(k1, .vInt i)])]).2.nodes c = nodeAt h.nodes c) := by
  have hgi : getItem h n k0 = (.ok (.ref b), h) := by simp [getItem, hlk]
  obtain ⟨hB, hset, hBl, hBlen, hBfr, hBattr, hBname⟩ :=
    setItem_write k1 (Value.prim (.vInt i)) hb hl
  have heq : update_dict h n [(k0, Yaml.vMap [(k1, Yaml.vInt i)])] = (.ok (), hB) := by
    simp only [update_dict, hgi, hset]
  rw [heq]
  refine ⟨rfl, hBl, hBlen, ?_, hBattr, hBfr⟩
  by_cases hnb : n = b
  · subst hnb
    rw [hBattr, lookupA_upsertA_ne _ _ hk10]
    exact hlk
  · rw [hBfr n hn hnb]
    exact hlk

/-- C8 counterexample: an unlocked node whose key `a` already holds a leaf
value.  `update_dict` then calls `.update_dict` on that leaf, which raises
`AttributeError` instead of producing a node with `b` and `c` — so the
claim does not hold for *every* unlocked node. -/
theorem c8_merge_into_scalar_child :
    update_dict (Heap.mk [NodeData.mk "config" [] [("a", .prim (.vInt 5))]] false) 0
        [("a", .vMap [("b", .vInt 1)])]
      = (.error .attributeError,
         Heap.mk [NodeData.mk "config" [] [("a", .prim (.vInt 5))]] false) := by
  simp [update_dict, getItem, lookupA, nodeAt]

/-- C8 (amended): for every unlocked node whose key `a` is not already bound
to a leaf value (it is absent, or bound to a child node), merging
`a -> (b -> 1)` and then `a -> (c -> 2)` via `update_dict` succeeds and
yields one shared child under `a` carrying both `b = 1` and `c = 2`: the
merge is additive per key and does not replace the existing subtree. -/
theorem c8_merge_additive (h : Heap) (n : Nat)
    (hn : n < h.nodes.length) (hl : h.locked = false)
    (hcase : lookupA (nodeAt h.nodes n).attributes "a" = none ∨
      ∃ b, b < h.nodes.length ∧
        lookupA (nodeAt h.nodes n).attributes "a" = some (.ref b)) :
    ∃ (h1 g : Heap) (b : Nat),
      update_dict h n [("a", .vMap [("b", .vInt 1)])] = (.ok (), h1) ∧
      update_dict h1 n [("a", .vMap [("c", .vInt 2)])] = (.ok (), g) ∧
      lookupA (nodeAt g.nodes n).attributes "a" = some (.ref b) ∧
      lookupA (nodeAt g.nodes b).attributes "b" = some (.prim (.vInt 1)) ∧
      lookupA (nodeAt g.nodes b).attributes "c" = some (.prim (.vInt 2)) := by
  rcases hcase with hnone | ⟨b, hb, hsome⟩
  · -- key `a` absent: the first merge lazily creates the child
    obtain ⟨hA, hgi, hAl, hAlen, hAfr, hAattr, hAname, hAnew⟩ :=
      getItem_create hn hl hnone
    obtain ⟨hB, hset, hBl, hBlen, hBfr, hBattr, hBname⟩ :=
      setItem_write "b" (Value.prim (.vInt 1)) (show h.nodes.length < hA.nodes.length by omega) hAl
    have heq1 : update_dict h n [("a", Yaml.vMap [("b", Yaml.vInt 1)])] = (.ok (), hB) := by
      simp only [update_dict, hgi, hset]
    have hlk2 : lookupA (nodeAt hB.nodes n).attributes "a"
        = some (.ref h.nodes.length) := by
      rw [hBfr n (by omega) (by omega), hAattr, lookupA_append_none _ hnone]
      simp [lookupA]
    obtain ⟨e2ok, hGl, hGlen, hGlk, hGattr, hGfr⟩ :=
      merge_pair_leaf hB n "a" "c" 2 (by omega) hBl h.nodes.length (by omega) hlk2
        (by decide)
    refine ⟨hB, _, h.nodes.length, heq1, ?_, hGlk, ?_, ?_⟩
    · rw [Prod.ext_iff]
      exact ⟨e2ok, rfl⟩
    · rw [hGattr, lookupA_upsertA_ne _ _ (show ¬("c" = "b") by decide), hBattr,
        hAnew]
      simp [upsertA, lookupA]
    · rw [hGattr, lookupA_upsertA_self]
  · -- key `a` already bound to a child node
    obtain ⟨e1ok, h1l, h1len, h1lk, h1attr, h1fr⟩ :=
      merge_pair_leaf h n "a" "b" 1 hn hl b hb hsome (by decide)
    obtain ⟨e2ok, hGl, hGlen, hGlk, hGattr, hGfr⟩ :=
      merge_pair_leaf (update_dict h n [("a", .vMap [("b", .vInt 1)])]).2 n "a" "c" 2
        (by omega) h1l b (by omega) h1lk (by decide)
    refine ⟨(update_dict h n [("a", .vMap [("b", .vInt 1)])]).2,
      (update_dict (update_dict h n [("a", .vMap [("b", .vInt 1)])]).2 n
        [("a", .vMap [("c", .vInt 2)])]).2, b, ?_, ?_, hGlk, ?_, ?_⟩
    · rw [Prod.ext_iff]
      exact ⟨e1ok, rfl⟩
    · rw [Prod.ext_iff]
      exact ⟨e2ok, rfl⟩
    · rw [hGattr, lookupA_upsertA_ne _ _ (show ¬("c" = "b") by decide), h1attr,
        lookupA_upsertA_self]
    · rw [hGattr, lookupA_upsertA_self]

/-- Witness for C8 (amended) on a one-node unlocked heap with `a` absent. -/
theorem c8_merge_additive_witness :
    (0 : Nat) < (Heap.mk [NodeData.mk "config" [] []] false).nodes.length ∧
    (Heap.mk [NodeData.mk "config" [] []] false).locked = false ∧
    lookupA (nodeAt (Heap.mk [NodeData.mk "config" [] []] false).nodes 0).attributes "a"
      = none ∧
    (∃ (h1 g : Heap) (b : Nat),
      update_dict (Heap.mk [NodeData.mk "config" [] []] false) 0
          [("a", .vMap [("b", .vInt 1)])] = (.ok (), h1) ∧
      update_dict h1 0 [("a", .vMap [("c", .vInt 2)])] = (.ok (), g) ∧
      lookupA (nodeAt g.nodes 0).attributes "a" = some (.ref b) ∧
      lookupA (nodeAt g.nodes b).attributes "b" = some (.prim (.vInt 1)) ∧
      lookupA (nodeAt g.nodes b).attributes "c" = some (.prim (.vInt 2))) :=
  ⟨by simp, rfl, rfl,
   c8_merge_additive (Heap.mk [NodeData.mk "config" [] []] false) 0 (by simp) rfl
     (Or.inl rfl)⟩

/-- C2 counterexample: `register_parsed` of a raw in-memory scalar document
on a freshly locked configuration.  `mixin_config` unlocks the tree, then
`choice.iteritems()` raises `AttributeError` before the re-lock line runs,
so the caller observes the tree unlocked after the raising call. -/
theorem c2_raw_scalar_leaves_unlocked :
    (initialConfiguration "dev").heap.locked = true ∧
    (register_parsed (initialConfiguration "dev") (some (.vInt 5)) none true false none).1
      = .error .attributeError ∧
    ((register_parsed (initialConfiguration "dev") (some (.vInt 5)) none true false
        none).2).heap.locked = false := by
  refine ⟨rfl, ?_, ?_⟩ <;>
    simp [register_parsed, mixin_config, envAbsent, selectChoice, walkNested,
      mergeChoice, initialConfiguration, truthyOptStr, truthyOptYaml, truthyYaml,
      Except.map]

/-- C2 (amended): every transition to unlocked is followed by a transition
back to locked on the *successful* path: no caller of `register_parsed`,
`register` or `set_env` on a locked configuration can observe the tree
unlocked after the call *returns normally*.  (A call that raises after the
unlock can leave the tree unlocked — see the counterexample.) -/
theorem c2_lock_restored_on_success (c : Configuration)
    (hl : c.heap.locked = true) :
    (∀ (cfg : Option Yaml) (fp : Option String) (raw opt : Bool)
        (nst : Option String),
      (register_parsed c cfg fp raw opt nst).1 = .ok () →
      ((register_parsed c cfg fp raw opt nst).2).heap.locked = true) ∧
    (∀ (fp : String) (raw opt : Bool) (nst : Option String) (ex : Bool)
        (parsed : Except String (Option Yaml)),
      (register c fp raw opt nst ex parsed).1 = .ok () →
      ((register c fp raw opt nst ex parsed).2).heap.locked = true) ∧
    (∀ env', (set_env c env').1 = .ok () →
      ((set_env c env').2).heap.locked = true) := by
  have hrp : ∀ (cfg : Option Yaml) (fp : Option String) (raw opt : Bool)
      (nst : Option String),
      (register_parsed c cfg fp raw opt nst).1 = .ok () →
      ((register_parsed c cfg fp raw opt nst).2).heap.locked = true := by
    intro cfg fp raw opt nst hok
    exact mixin_ok_locked c.env c.heap _ hl hok
  refine ⟨hrp, ?_, ?_⟩
  · intro fp raw opt nst ex parsed hok
    by_cases habs : fp.data.head? = some '/'
    · cases ex with
      | true =>
        rcases parsed with e | cfg
        · cases opt <;> simp [register, habs] at hok
        · cases opt <;>
            (simp [register, habs] at hok ⊢; exact hrp _ _ _ _ _ hok)
      | false =>
        cases opt with
        | true =>
          simp [register, habs] at hok ⊢
          exact hrp _ _ _ _ _ hok
        | false => simp [register, habs] at hok
    · simp [register, habs] at hok
  · intro env' hok
    rcases hsc : storeClear recursionLimit c.heap 0 with ⟨rs, h'⟩
    rcases rs with e | u
    · simp [set_env, reapply_config, hsc] at hok
    · have hl' : h'.locked = true := by
        have hpres := storeClear_locked recursionLimit c.heap 0
        rw [hsc] at hpres
        rw [show (((Except.ok () : Except PyErr Unit), h')).2 = h' from rfl] at hpres
        rw [hpres, hl]
      rcases had : applyDirectives env' h' c.directives with ⟨ra, h''⟩
      have hok' : ra = .ok () := by
        simp [set_env, reapply_config, hsc, had] at hok
        exact hok
      have hfin := applyDirectives_ok_locked env' c.directives h' hl'
        (by rw [had, hok'])
      rw [had] at hfin
      simp [set_env, reapply_config, hsc, had]
      exact hfin

/-- Witness for C2 (amended): a raw in-memory mapping registration and an
environment switch on the initial configuration. -/
theorem c2_lock_restored_on_success_witness :
    (initialConfiguration "dev").heap.locked = true ∧
    ((register_parsed (initialConfiguration "dev") (some (.vMap [("x", .vInt 1)]))
        none true false none).1 = .ok () →
      ((register_parsed (initialConfiguration "dev") (some (.vMap [("x", .vInt 1)]))
          none true false none).2).heap.locked = true) ∧
    ((set_env (initialConfiguration "dev") "prod").1 = .ok () →
      ((set_env (initialConfiguration "dev") "prod").2).heap.locked = true) :=
  ⟨rfl, (c2_lock_restored_on_success _ rfl).1 _ _ _ _ _,
   (c2_lock_restored_on_success _ rfl).2.2 _⟩

/-- C3: a register call on an existing file whose contents fail to parse.
The handler evaluates `sys.exc_info()`, but the module never imports `sys`,
so the call raises `NameError` for the unbound name `sys` — not the
`ConfigFileError` the spec promises (that raise is dead code). -/
theorem c3_parse_failure_nameerror :
    register (initialConfiguration "local") "/bad.yaml" false false none true
        (.error "mapping values are not allowed here")
      = (.error (.nameError "sys"), initialConfiguration "local") := by
  simp [register]

/-- C4 counterexample: a non-raw, file-sourced, non-null, non-empty scalar
document (the YAML collaborator may produce a top-level scalar).  The
active environment `dev` is not a top-level key of it, yet the guard
`self.env not in config` raises `TypeError` (an `int` is not iterable), not
`MissingEnvironment`. -/
theorem c4_scalar_document_typeerror :
    mixin_config "dev" (initialConfiguration "dev").heap
        { config := some (.vInt 5), filepath := some "/data.yaml", raw := false,
          optional := false, nested := none }
      = (.error .typeError, (initialConfiguration "dev").heap) := by
  simp [mixin_config, envAbsent, pyInY, truthyOptStr, Except.map,
    initialConfiguration]

/-- C4 (amended): for every directive with `raw = False`, a file-sourced
non-null *mapping* document, and an active environment that is not among
the document's top-level keys, applying the directive raises
`MissingEnvironment` naming the environment and the file, before any merge:
the heap is returned unchanged. -/
theorem c4_missing_environment (env : String) (h : Heap) (d : Directive)
    (m : List (String × Yaml)) (fp : String)
    (hraw : d.raw = false) (hfp : d.filepath = some fp) (hfpne : ¬(fp = ""))
    (hcfg : d.config = some (.vMap m))
    (henv : ¬ env ∈ yamlKeys m) :
    mixin_config env h d
      = (.error (.missingEnvironment (missingEnvMsg env fp)), h) := by
  have hopt : (d.optional && d.config.isNone) = false := by simp [hcfg]
  have henv2 : ∀ x : Yaml, (env, x) ∉ m := fun x hmem =>
    henv (by simpa [yamlKeys] using List.mem_map_of_mem Prod.fst hmem)
  have habs : envAbsent env d = .ok true := by
    simp [envAbsent, hraw, hfp, truthyOptStr, hfpne, hcfg, pyInY, Except.map,
      yamlKeys, henv2]
  simp [mixin_config, hopt, habs, hfp]

/-- Witness for C4 (amended): a two-environment file registered under an
environment it does not define. -/
theorem c4_missing_environment_witness :
    (Directive.mk (some (.vMap [("prod", .vMap [("x", .vInt 1)])]))
        (some "/env.yaml") false false none).raw = false ∧
    ¬ "dev" ∈ yamlKeys [("prod", Yaml.vMap [("x", Yaml.vInt 1)])] ∧
    mixin_config "dev" (initialConfiguration "dev").heap
        (Directive.mk (some (.vMap [("prod", .vMap [("x", .vInt 1)])]))
          (some "/env.yaml") false false none)
      = (.error (.missingEnvironment (missingEnvMsg "dev" "/env.yaml")),
         (initialConfiguration "dev").heap) :=
  ⟨rfl, by simp [yamlKeys],
   c4_missing_environment "dev" (initialConfiguration "dev").heap _
     [("prod", .vMap [("x", .vInt 1)])] "/env.yaml" rfl rfl (by simp) rfl
     (by simp [yamlKeys])⟩

/-- C1: registering a file containing `prod -> (x -> 1), dev -> (x -> 2)`
under active environment `dev` succeeds and yields `x = 2` at the root, as
the claim says — but the subsequent `set_env('prod')` does not replay the
directives: `reapply_config` first calls `clear()`, whose body reads
`self.attributes` (a typo for `self._attributes`), which `__getattr__`
routes to `self['attributes']` on the still-locked tree, raising
`UndefinedKeyError` instead of rebuilding the tree to `x = 1`. -/
theorem c1_set_env_broken_clear :
    (register (initialConfiguration "dev") "/env.yaml" false false none true
        (.ok (some (.vMap [("prod", .vMap [("x", .vInt 1)]),
                          ("dev", .vMap [("x", .vInt 2)])])))).1 = .ok () ∧
    to_dict ((register (initialConfiguration "dev") "/env.yaml" false false none true
        (.ok (some (.vMap [("prod", .vMap [("x", .vInt 1)]),
                          ("dev", .vMap [("x", .vInt 2)])])))).2).heap 0
      = .vMap [("x", .vInt 2)] ∧
    (set_env ((register (initialConfiguration "dev") "/env.yaml" false false none true
        (.ok (some (.vMap [("prod", .vMap [("x", .vInt 1)]),
                          ("dev", .vMap [("x", .vInt 2)])])))).2) "prod").1
      = .error (.undefinedKeyError (undefinedKeyMsg "config" "attributes")) := by
  refine ⟨?_, ?_, ?_⟩ <;>
    simp [register, register_parsed, mixin_config, envAbsent, selectChoice, pyInY,
      pySubscriptY, truthyOptStr, truthyOptYaml, truthyYaml, yamlKeys, walkNested,
      mergeChoice, update_dict, getItem, setItem, writeAttr, nodeAt, lookupA,
      upsertA, initialConfiguration, Except.map, to_dict, toDictAux, set_env,
      reapply_config, storeClear, recursionLimit, applyDirectives, undefinedKeyMsg]


/-- Spec-side plain merge of one registered mapping into the mapping the
tree represents so far: the `mergeDict` algorithm of the spec (section 4.1)
replayed on plain nested mappings.  A mapping value merges recursively into
the existing mapping under the key (an absent key starts from the empty
mapping); any other value overwrites.  The merge is undefined (`none`)
exactly where `update_dict` raises `AttributeError`: when the value stored
under the key is not a mapping while the incoming value is one. -/
def mergeEntries (e : List (String × Yaml)) : List (String × Yaml) →
    Option (List (String × Yaml))
  | [] => some e
  | (k, Yaml.vMap m') :: rest =>
    (match lookupA e k with
     | some (Yaml.vMap sub) =>
       (match mergeEntries sub m' with
        | some r => mergeEntries (upsertA e k (Yaml.vMap r)) rest
        | none => none)
     | some _ => none
     | none =>
       (match mergeEntries ([] : List (String × Yaml)) m' with
        | some r => mergeEntries (upsertA e k (Yaml.vMap r)) rest
        | none => none))
  | (k, y) :: rest => mergeEntries (upsertA e k y) rest
termination_by m => sizeOf m

/-- The spec-side merge folded over a sequence of registered mappings. -/
def mergeAll (e : List (String × Yaml)) :
    List (List (String × Yaml)) → Option (List (String × Yaml))
  | [] => some e
  | m :: rest =>
    (match mergeEntries e m with
     | some e' => mergeAll e' rest
     | none => none)

/-- A sequence of raw in-memory registrations (`register_parsed` with
`raw = True`, no file, no mount path), stopping at the first exception. -/
def registerRawAll (c : Configuration) :
    List (List (String × Yaml)) → Except PyErr Unit × Configuration
  | [] => (.ok (), c)
  | m :: rest =>
    (match register_parsed c (some (.vMap m)) none true false none with
     | (.ok (), c') => registerRawAll c' rest
     | (.error e, c') => (.error e, c'))

/-- The footprint of a node's children: every address reachable through
child references (the node's subtree), in depth-first order.  The guard
makes the recursion well founded; on the heaps the operations build it
always holds. -/
def reachAux (ns : List NodeData) (a : Nat) : List (String × Value) → List Nat
  | [] => []
  | (_, .prim _) :: rest => reachAux ns a rest
  | (_, .ref b) :: rest =>
    (if _hb : a < b ∧ b < ns.length then
       b :: reachAux ns b (nodeAt ns b).attributes
     else []) ++ reachAux ns a rest
termination_by entries => (ns.length - a, entries.length)
decreasing_by all_goals (simp_wf; omega)

/-- The node at `a` represents the plain mapping `e`: its children align
with the mapping's entries pointwise and in order — a stored plain value is
the (non-mapping) entry value itself, and a stored child reference points
to an in-bounds later node representing the entry's sub-mapping.  This is
the shape `update_dict` builds and `to_dict` reads back. -/
inductive ReprA (ns : List NodeData) : Nat → List (String × Value) →
    List (String × Yaml) → Prop where
  | nil (a : Nat) : ReprA ns a [] []
  | prim (a : Nat) (k : String) (y : Yaml)
      (vr : List (String × Value)) (er : List (String × Yaml))
      (hy : isMapY y = none) (h : ReprA ns a vr er) :
      ReprA ns a ((k, .prim y) :: vr) ((k, y) :: er)
  | ref (a b : Nat) (k : String)
      (sub : List (String × Yaml)) (vr : List (String × Value))
      (er : List (String × Yaml))
      (hab : a < b) (hb : b < ns.length)
      (hchild : ReprA ns b (nodeAt ns b).attributes sub)
      (h : ReprA ns a vr er) :
      ReprA ns a ((k, .ref b) :: vr) ((k, .vMap sub) :: er)

/-- Unfolding of the spec-side merge on a non-mapping head value. -/
theorem mergeEntries_cons_notmap (e : List (String × Yaml)) (k : String)
    (y : Yaml) (rest : List (String × Yaml)) (hy : isMapY y = none) :
    mergeEntries e ((k, y) :: rest) = mergeEntries (upsertA e k y) rest := by
  cases y with
  | vMap m => simp [isMapY] at hy
  | vNull => simp [mergeEntries]
  | vBool b => simp [mergeEntries]
  | vInt n => simp [mergeEntries]
  | vStr s => simp [mergeEntries]

/-- The footprint of concatenated children is the concatenation of the
footprints. -/
theorem reachAux_append (ns : List NodeData) (a : Nat)
    (l1 l2 : List (String × Value)) :
    reachAux ns a (l1 ++ l2) = reachAux ns a l1 ++ reachAux ns a l2 := by
  induction l1 with
  | nil => simp [reachAux]
  | cons hd tl ih =>
    obtain ⟨k, v⟩ := hd
    cases v with
    | prim y => simp only [List.cons_append, reachAux]; exact ih
    | ref b => simp only [List.cons_append, reachAux, List.append_assoc, ih]

/-- Every address in a footprint lies strictly between the owner and the end
of the heap. -/
theorem reachAux_bound_aux :
    ∀ (kf : Nat) (ns : List NodeData) (a : Nat), ns.length - a ≤ kf →
      ∀ attrs c, c ∈ reachAux ns a attrs → a < c ∧ c < ns.length := by
  intro kf
  induction kf with
  | zero =>
    intro ns a hk attrs
    induction attrs with
    | nil => intro c hc; simp [reachAux] at hc
    | cons hd tl ihe =>
      obtain ⟨k, v⟩ := hd
      cases v with
      | prim y =>
        intro c hc
        simp only [reachAux] at hc
        exact ihe c hc
      | ref b =>
        intro c hc
        simp only [reachAux, List.mem_append] at hc
        rcases hc with hc | hc
        · by_cases hg : a < b ∧ b < ns.length
          · omega
          · rw [dif_neg hg] at hc
            simp at hc
        · exact ihe c hc
  | succ kf ih =>
    intro ns a hk attrs
    induction attrs with
    | nil => intro c hc; simp [reachAux] at hc
    | cons hd tl ihe =>
      obtain ⟨k, v⟩ := hd
      cases v with
      | prim y =>
        intro c hc
        simp only [reachAux] at hc
        exact ihe c hc
      | ref b =>
        intro c hc
        simp only [reachAux, List.mem_append] at hc
        rcases hc with hc | hc
        · by_cases hg : a < b ∧ b < ns.length
          · rw [dif_pos hg] at hc
            rcases List.mem_cons.1 hc with hc | hc
            · omega
            · have := ih ns b (by omega) (nodeAt ns b).attributes c hc
              omega
          · rw [dif_neg hg] at hc
            simp at hc
        · exact ihe c hc

/-- Every address in a footprint lies strictly between the owner and the end
of the heap (wrapper). -/
theorem reachAux_bound (ns : List NodeData) (a : Nat)
    (attrs : List (String × Value)) :
    ∀ c ∈ reachAux ns a attrs, a < c ∧ c < ns.length :=
  reachAux_bound_aux ns.length ns a (by omega) attrs

/-- A represented node renders back to the represented mapping. -/
theorem ReprA_toDictAux {ns : List NodeData} {a : Nat}
    {attrs : List (String × Value)} {e : List (String × Yaml)}
    (h : ReprA ns a attrs e) : toDictAux ns a attrs = e := by
  induction h with
  | nil => simp [toDictAux]
  | prim a k y vr er hy hr ih => simp only [toDictAux, ih]
  | ref a b k sub vr er hab hb hchild hr ihc ih =>
    simp only [toDictAux]
    rw [dif_pos ⟨hab, hb⟩, ihc, ih]

/-- Lookup correspondence: a missing key is missing on both sides. -/
theorem ReprA_lookup_none {ns : List NodeData} {a : Nat}
    {attrs : List (String × Value)} {e : List (String × Yaml)}
    (h : ReprA ns a attrs e) (k : String) :
    lookupA attrs k = none → lookupA e k = none := by
  induction h with
  | nil => intro _; rfl
  | prim a k0 y vr er hy hr ih =>
    intro hk
    by_cases hk0 : k0 = k
    · simp [lookupA, hk0] at hk
    · simp only [lookupA, hk0, if_false] at hk ⊢
      exact ih hk
  | ref a b k0 sub vr er hab hb hchild hr ihc ih =>
    intro hk
    by_cases hk0 : k0 = k
    · simp [lookupA, hk0] at hk
    · simp only [lookupA, hk0, if_false] at hk ⊢
      exact ih hk

/-- Lookup correspondence: a stored plain value is the entry value. -/
theorem ReprA_lookup_prim {ns : List NodeData} {a : Nat}
    {attrs : List (String × Value)} {e : List (String × Yaml)}
    (h : ReprA ns a attrs e) (k : String) (y : Yaml) :
    lookupA attrs k = some (.prim y) →
    lookupA e k = some y ∧ isMapY y = none := by
  induction h with
  | nil => intro hk; simp [lookupA] at hk
  | prim a k0 y0 vr er hy hr ih =>
    intro hk
    by_cases hk0 : k0 = k
    · simp only [lookupA, hk0, if_pos rfl] at hk ⊢
      obtain ⟨rfl⟩ : y0 = y := by simpa using hk
      exact ⟨rfl, hy⟩
    · simp only [lookupA, hk0, if_false] at hk ⊢
      exact ih hk
  | ref a b k0 sub vr er hab hb hchild hr ihc ih =>
    intro hk
    by_cases hk0 : k0 = k
    · simp [lookupA, hk0] at hk
    · simp only [lookupA, hk0, if_false] at hk ⊢
      exact ih hk

/-- Lookup correspondence: a stored child reference has a represented
sub-mapping on the plain side, and its subtree is contained (as a sublist,
hence with multiplicity) in the owner's footprint. -/
theorem ReprA_lookup_ref {ns : List NodeData} {a : Nat}
    {attrs : List (String × Value)} {e : List (String × Yaml)}
    (h : ReprA ns a attrs e) (k : String) (b : Nat) :
    lookupA attrs k = some (.ref b) →
    ∃ sub, lookupA e k = some (.vMap sub) ∧ a < b ∧ b < ns.length ∧
      ReprA ns b (nodeAt ns b).attributes sub ∧
      List.Sublist (b :: reachAux ns b (nodeAt ns b).attributes)
        (reachAux ns a attrs) := by
  induction h with
  | nil => intro hk; simp [lookupA] at hk
  | prim a k0 y vr er hy hr ih =>
    intro hk
    by_cases hk0 : k0 = k
    · simp [lookupA, hk0] at hk
    · simp only [lookupA, hk0, if_false] at hk
      obtain ⟨sub, h1, h2, h3, h4, h5⟩ := ih hk
      refine ⟨sub, ?_, h2, h3, h4, ?_⟩
      · simp [lookupA, hk0, h1]
      · simp only [reachAux]
        exact h5
  | ref a b0 k0 sub0 vr er hab hb hchild hr ihc ih =>
    intro hk
    by_cases hk0 : k0 = k
    · simp only [lookupA, hk0, if_pos rfl] at hk
      obtain ⟨rfl⟩ : b0 = b := by simpa using hk
      refine ⟨sub0, by simp [lookupA, hk0], hab, hb, hchild, ?_⟩
      simp only [reachAux]
      rw [dif_pos ⟨hab, hb⟩]
      exact List.sublist_append_left _ _
    · simp only [lookupA, hk0, if_false] at hk
      obtain ⟨sub, h1, h2, h3, h4, h5⟩ := ih hk
      refine ⟨sub, by simp [lookupA, hk0, h1], h2, h3, h4, ?_⟩
      simp only [reachAux]
      exact h5.trans (List.sublist_append_right _ _)

/-- A footprint is unchanged by heap modifications outside it. -/
theorem reachAux_stable {ns ns' : List NodeData}
    (hlen : ns.length ≤ ns'.length) {a : Nat}
    {attrs : List (String × Value)} {e : List (String × Yaml)}
    (h : ReprA ns a attrs e) :
    (∀ c ∈ reachAux ns a attrs, nodeAt ns' c = nodeAt ns c) →
    reachAux ns' a attrs = reachAux ns a attrs := by
  induction h with
  | nil => intro _; simp [reachAux]
  | prim a k y vr er hy hr ih =>
    intro hfr
    simp only [reachAux] at hfr ⊢
    exact ih hfr
  | ref a b k sub vr er hab hb hchild hr ihc ih =>
    intro hfr
    simp only [reachAux] at hfr ⊢
    rw [dif_pos ⟨hab, hb⟩] at hfr
    rw [dif_pos ⟨hab, lt_of_lt_of_le hb hlen⟩, dif_pos ⟨hab, hb⟩]
    have hbeq : nodeAt ns' b = nodeAt ns b := hfr b (by simp)
    rw [hbeq,
      ihc (fun c hc => hfr c (List.mem_append.2 (Or.inl (List.mem_cons_of_mem _ hc)))),
      ih (fun c hc => hfr c (List.mem_append.2 (Or.inr hc)))]

/-- Representation is unchanged by heap modifications outside the
footprint. -/
theorem ReprA_stable {ns ns' : List NodeData}
    (hlen : ns.length ≤ ns'.length) {a : Nat}
    {attrs : List (String × Value)} {e : List (String × Yaml)}
    (h : ReprA ns a attrs e) :
    (∀ c ∈ reachAux ns a attrs, nodeAt ns' c = nodeAt ns c) →
    ReprA ns' a attrs e := by
  induction h with
  | nil => intro _; exact ReprA.nil _
  | prim a k y vr er hy hr ih =>
    intro hfr
    simp only [reachAux] at hfr
    exact ReprA.prim _ _ _ _ _ hy (ih hfr)
  | ref a b k sub vr er hab hb hchild hr ihc ih =>
    intro hfr
    simp only [reachAux] at hfr
    rw [dif_pos ⟨hab, hb⟩] at hfr
    have hbeq : nodeAt ns' b = nodeAt ns b := hfr b (by simp)
    refine ReprA.ref _ _ _ _ _ _ hab (lt_of_lt_of_le hb hlen) ?_
      (ih fun c hc => hfr c (List.mem_append.2 (Or.inr hc)))
    rw [hbeq]
    exact ihc (fun c hc => hfr c (List.mem_append.2 (Or.inl (List.mem_cons_of_mem _ hc))))

/-- Writing a plain value under a key preserves representation, with the
plain mapping updated the same way. -/
theorem ReprA_upsert_prim {ns : List NodeData} {a : Nat}
    {attrs : List (String × Value)} {e : List (String × Yaml)}
    (h : ReprA ns a attrs e) (k : String) {y : Yaml} (hy : isMapY y = none) :
    ReprA ns a (upsertA attrs k (.prim y)) (upsertA e k y) := by
  induction h with
  | nil =>
    simp only [upsertA]
    exact ReprA.prim _ _ _ _ _ hy (ReprA.nil _)
  | prim a k0 y0 vr er hy0 hr ih =>
    by_cases hk0 : k0 = k
    · simp only [upsertA, hk0, if_pos rfl]
      exact ReprA.prim _ _ _ _ _ hy hr
    · simp only [upsertA, hk0, if_false]
      exact ReprA.prim _ _ _ _ _ hy0 ih
  | ref a b k0 sub vr er hab hb hchild hr ihc ih =>
    by_cases hk0 : k0 = k
    · simp only [upsertA, hk0, if_pos rfl]
      exact ReprA.prim _ _ _ _ _ hy hr
    · simp only [upsertA, hk0, if_false]
      exact ReprA.ref _ _ _ _ _ _ hab hb hchild ih

/-- Writing a plain value under a key only shrinks the footprint. -/
theorem reachAux_upsert_prim {ns : List NodeData} (a : Nat)
    (attrs : List (String × Value)) (k : String) (y : Yaml) :
    List.Sublist (reachAux ns a (upsertA attrs k (.prim y)))
      (reachAux ns a attrs) := by
  induction attrs with
  | nil => simp [upsertA, reachAux]
  | cons hd tl ih =>
    obtain ⟨k0, v0⟩ := hd
    by_cases hk0 : k0 = k
    · simp only [upsertA, hk0, if_pos rfl, if_true, reachAux]
      cases v0 with
      | prim y0 =>
        simp only [reachAux]
        exact List.Sublist.refl _
      | ref b =>
        simp only [reachAux]
        exact List.sublist_append_right _ _
    · simp only [upsertA, hk0, if_false]
      cases v0 with
      | prim y0 =>
        simp only [reachAux]
        exact ih
      | ref b =>
        simp only [reachAux]
        exact List.Sublist.append_left ih _

/-- Appending a reference to a fresh represented child extends the
representation with the corresponding mapping entry. -/
theorem ReprA_append_ref {ns : List NodeData} {a L : Nat}
    {attrs : List (String × Value)} {e r : List (String × Yaml)} {k : String}
    (h : ReprA ns a attrs e) (haL : a < L) (hL : L < ns.length)
    (hrepr : ReprA ns L (nodeAt ns L).attributes r) :
    ReprA ns a (attrs ++ [(k, .ref L)]) (e ++ [(k, .vMap r)]) := by
  induction h with
  | nil =>
    simp only [List.nil_append]
    exact ReprA.ref _ _ _ _ _ _ haL hL hrepr (ReprA.nil _)
  | prim a k0 y0 vr er hy0 hr ih =>
    simp only [List.cons_append]
    exact ReprA.prim _ _ _ _ _ hy0 (ih haL)
  | ref a b k0 sub vr er hab hb hchild hr ihc ih =>
    simp only [List.cons_append]
    exact ReprA.ref _ _ _ _ _ _ hab hb hchild (ih haL)

/-- Updating the subtree below one referenced child: if the child `b` of
node `a` is rebuilt so that it now represents `r` (touching only `b`, its
old subtree and fresh nodes), then `a` represents the plain mapping with
`r` substituted under the key, its footprint stays duplicate-free, and the
footprint only grows by fresh addresses.  The duplicate-freedom of the old
footprint is what makes the sibling subtrees disjoint from the rebuilt
one. -/
theorem ReprA_update_child {ns ns' : List NodeData} {a b : Nat}
    {attrs : List (String × Value)} {e r : List (String × Yaml)} {k : String}
    (hlen : ns.length ≤ ns'.length)
    (hfr : ∀ c, c < ns.length → c ≠ b →
      c ∉ reachAux ns b (nodeAt ns b).attributes → nodeAt ns' c = nodeAt ns c)
    (hrepr : ReprA ns' b (nodeAt ns' b).attributes r)
    (hndb : (b :: reachAux ns' b (nodeAt ns' b).attributes).Nodup)
    (hsub : ∀ c ∈ reachAux ns' b (nodeAt ns' b).attributes,
      c ∈ reachAux ns b (nodeAt ns b).attributes ∨ ns.length ≤ c)
    (h : ReprA ns a attrs e) :
    (reachAux ns a attrs).Nodup →
    lookupA attrs k = some (.ref b) →
    ReprA ns' a attrs (upsertA e k (.vMap r)) ∧
    (reachAux ns' a attrs).Nodup ∧
    (∀ c ∈ reachAux ns' a attrs, c ∈ reachAux ns a attrs ∨ ns.length ≤ c) := by
  induction h with
  | nil =>
    intro _ hlk
    simp [lookupA] at hlk
  | prim a k0 y vr er hy hr ih =>
    intro hnd hlk
    by_cases hk0 : k0 = k
    · simp [lookupA, hk0] at hlk
    · simp only [lookupA, hk0, if_false] at hlk
      simp only [reachAux] at hnd ⊢
      obtain ⟨h1, h2, h3⟩ := ih hnd hlk
      refine ⟨?_, h2, h3⟩
      simp only [upsertA, hk0, if_false]
      exact ReprA.prim _ _ _ _ _ hy h1
  | ref a b0 k0 sub0 vr er hab hb0 hchild hr _ihc ih =>
    intro hnd hlk
    simp only [reachAux] at hnd
    rw [dif_pos ⟨hab, hb0⟩] at hnd
    rw [List.nodup_append] at hnd
    obtain ⟨nd1, nd2, disj⟩ := hnd
    have hboundvr := reachAux_bound ns a vr
    have hbound0 := reachAux_bound ns b0 (nodeAt ns b0).attributes
    by_cases hk0 : k0 = k
    · subst hk0
      simp only [lookupA, if_pos rfl] at hlk
      have hb0b : b0 = b := by simpa using hlk
      subst hb0b
      have hfrvr : ∀ c ∈ reachAux ns a vr, nodeAt ns' c = nodeAt ns c := by
        intro c hc
        have hbnd := hboundvr c hc
        have hcneb : c ≠ b0 := by
          intro he
          exact disj (List.mem_cons_self _ _) (he ▸ hc)
        have hcnot : c ∉ reachAux ns b0 (nodeAt ns b0).attributes := by
          intro hcin
          exact disj (List.mem_cons_of_mem _ hcin) hc
        exact hfr c hbnd.2 hcneb hcnot
      refine ⟨?_, ?_, ?_⟩
      · simp only [upsertA, if_pos rfl]
        exact ReprA.ref _ _ _ _ _ _ hab (lt_of_lt_of_le hb0 hlen) hrepr
          (ReprA_stable hlen hr hfrvr)
      · simp only [reachAux]
        rw [dif_pos ⟨hab, lt_of_lt_of_le hb0 hlen⟩,
          reachAux_stable hlen hr hfrvr, List.nodup_append]
        refine ⟨hndb, nd2, ?_⟩
        intro x hx1 hx2
        rcases List.mem_cons.1 hx1 with rfl | hx1
        · exact disj (List.mem_cons_self _ _) hx2
        · rcases hsub x hx1 with hold | hge
          · exact disj (List.mem_cons_of_mem _ hold) hx2
          · exact absurd (hboundvr x hx2).2 (by omega)
      · simp only [reachAux]
        rw [dif_pos ⟨hab, lt_of_lt_of_le hb0 hlen⟩, dif_pos ⟨hab, hb0⟩,
          reachAux_stable hlen hr hfrvr]
        intro c hc
        rcases List.mem_append.1 hc with hc | hc
        · rcases List.mem_cons.1 hc with rfl | hc
          · left
            exact List.mem_append.2 (Or.inl (List.mem_cons_self _ _))
          · rcases hsub c hc with hold | hge
            · left
              exact List.mem_append.2 (Or.inl (List.mem_cons_of_mem _ hold))
            · right
              exact hge
        · left
          exact List.mem_append.2 (Or.inr hc)
    · simp only [lookupA, hk0, if_false] at hlk
      obtain ⟨subb, hsubb_lk, habb, hbb, hreprb, hsl⟩ := ReprA_lookup_ref hr k b hlk
      have hb_in_vr : b ∈ reachAux ns a vr := hsl.subset (List.mem_cons_self _ _)
      have hreachb_sub : ∀ c ∈ reachAux ns b (nodeAt ns b).attributes,
          c ∈ reachAux ns a vr :=
        fun c hc => hsl.subset (List.mem_cons_of_mem _ hc)
      have hfr0 : ∀ c ∈ (b0 :: reachAux ns b0 (nodeAt ns b0).attributes),
          nodeAt ns' c = nodeAt ns c := by
        intro c hc
        have hcb : c ≠ b := by
          intro he
          exact disj hc (he ▸ hb_in_vr)
        have hcnot : c ∉ reachAux ns b (nodeAt ns b).attributes := by
          intro hcin
          exact disj hc (hreachb_sub c hcin)
        have hcbnd : c < ns.length := by
          rcases List.mem_cons.1 hc with rfl | hc'
          · exact hb0
          · exact (hbound0 c hc').2
        exact hfr c hcbnd hcb hcnot
      have hb0eq : nodeAt ns' b0 = nodeAt ns b0 := hfr0 b0 (List.mem_cons_self _ _)
      have hfr0' : ∀ c ∈ reachAux ns b0 (nodeAt ns b0).attributes,
          nodeAt ns' c = nodeAt ns c :=
        fun c hc => hfr0 c (List.mem_cons_of_mem _ hc)
      obtain ⟨h1, h2, h3⟩ := ih nd2 hlk
      refine ⟨?_, ?_, ?_⟩
      · simp only [upsertA, hk0, if_false]
        refine ReprA.ref _ _ _ _ _ _ hab (lt_of_lt_of_le hb0 hlen) ?_ h1
        rw [hb0eq]
        exact ReprA_stable hlen hchild hfr0'
      · simp only [reachAux]
        rw [dif_pos ⟨hab, lt_of_lt_of_le hb0 hlen⟩, hb0eq,
          reachAux_stable hlen hchild hfr0', List.nodup_append]
        refine ⟨nd1, h2, ?_⟩
        intro x hx1 hx2
        rcases h3 x hx2 with hold | hge
        · exact disj hx1 hold
        · have hxlt : x < ns.length := by
            rcases List.mem_cons.1 hx1 with rfl | hx1'
            · exact hb0
            · exact (hbound0 x hx1').2
          omega
      · simp only [reachAux]
        rw [dif_pos ⟨hab, lt_of_lt_of_le hb0 hlen⟩, dif_pos ⟨hab, hb0⟩, hb0eq,
          reachAux_stable hlen hchild hfr0']
        intro c hc
        rcases List.mem_append.1 hc with hc | hc
        · left
          exact List.mem_append.2 (Or.inl hc)
        · rcases h3 c hc with hold | hge
          · left
            exact List.mem_append.2 (Or.inr hold)
          · right
            exact hge

/-- Specification of `update_dict` against the spec-side plain merge: on an
unlocked good heap whose node `a` represents the plain mapping `e` with a
duplicate-free footprint, merging a mapping `m` whose plain merge into `e`
is defined succeeds, after which `a` represents the merged mapping; the
heap only grows, nodes outside `a` and its old subtree are untouched, and
the new footprint adds only fresh addresses.  (`n` bounds `sizeOf m` for
the nested recursion.) -/
theorem update_dict_merge :
    ∀ (n : Nat) (m : List (String × Yaml)), sizeOf m ≤ n →
      ∀ (h : Heap) (a : Nat) (e r : List (String × Yaml)),
        a < h.nodes.length → h.locked = false → GoodHeap h.nodes →
        ReprA h.nodes a (nodeAt h.nodes a).attributes e →
        (reachAux h.nodes a (nodeAt h.nodes a).attributes).Nodup →
        mergeEntries e m = some r →
        ∃ h2 : Heap,
          update_dict h a m = (.ok (), h2) ∧
          h2.locked = false ∧
          h.nodes.length ≤ h2.nodes.length ∧
          GoodHeap h2.nodes ∧
          ReprA h2.nodes a (nodeAt h2.nodes a).attributes r ∧
          (reachAux h2.nodes a (nodeAt h2.nodes a).attributes).Nodup ∧
          (∀ c, c < h.nodes.length → c ≠ a →
            c ∉ reachAux h.nodes a (nodeAt h.nodes a).attributes →
            nodeAt h2.nodes c = nodeAt h.nodes c) ∧
          (∀ c ∈ reachAux h2.nodes a (nodeAt h2.nodes a).attributes,
            c ∈ reachAux h.nodes a (nodeAt h.nodes a).attributes ∨
              h.nodes.length ≤ c) := by
  intro n
  induction n with
  | zero =>
    intro m hm
    exact absurd hm (by cases m <;> simp_arith)
  | succ n ih =>
    intro m hm h a e r ha hl hg hrep hnd hmrg
    cases m with
    | nil =>
      simp only [mergeEntries, Option.some.injEq] at hmrg
      subst hmrg
      exact ⟨h, by simp [update_dict], hl, le_refl _, hg, hrep, hnd,
        fun c _ _ _ => rfl, fun c hc => Or.inl hc⟩
    | cons hd rest =>
      obtain ⟨k, y⟩ := hd
      have hrest_size : sizeOf rest ≤ n := by
        simp only [List.cons.sizeOf_spec] at hm
        omega
      cases hmy : isMapY y with
      | none =>
        -- scalar head value: overwrite the entry on both sides
        rw [mergeEntries_cons_notmap _ _ _ _ hmy] at hmrg
        obtain ⟨hA, hset, hAl, hAlen, hAfr, hAattr, hAname⟩ :=
          setItem_write k (Value.prim y) ha hl
        have hgA : GoodHeap hA.nodes := GoodHeap_set hg ha hAlen hAfr hAattr
        have hstab : ∀ c ∈ reachAux h.nodes a (nodeAt h.nodes a).attributes,
            nodeAt hA.nodes c = nodeAt h.nodes c := by
          intro c hc
          have hb := reachAux_bound h.nodes a (nodeAt h.nodes a).attributes c hc
          exact hAfr c hb.2 (by omega)
        have hlenA : h.nodes.length ≤ hA.nodes.length := by omega
        have hrepA0 : ReprA hA.nodes a (nodeAt h.nodes a).attributes e :=
          ReprA_stable hlenA hrep hstab
        have hreachA0 : reachAux hA.nodes a (nodeAt h.nodes a).attributes
            = reachAux h.nodes a (nodeAt h.nodes a).attributes :=
          reachAux_stable hlenA hrep hstab
        have hrepA : ReprA hA.nodes a (nodeAt hA.nodes a).attributes
            (upsertA e k y) := by
          rw [hAattr]
          exact ReprA_upsert_prim hrepA0 k hmy
        have hreach_sub : ∀ c ∈ reachAux hA.nodes a (nodeAt hA.nodes a).attributes,
            c ∈ reachAux h.nodes a (nodeAt h.nodes a).attributes := by
          intro c hc
          rw [hAattr] at hc
          have := (reachAux_upsert_prim a (nodeAt h.nodes a).attributes k y).subset hc
          rwa [hreachA0] at this
        have hndA : (reachAux hA.nodes a (nodeAt hA.nodes a).attributes).Nodup := by
          rw [hAattr]
          exact ((reachAux_upsert_prim a (nodeAt h.nodes a).attributes k y).nodup
            (hreachA0 ▸ hnd))
        obtain ⟨h2, hupd2, h2l, h2len, h2g, h2rep, h2nd, h2fr, h2sub⟩ :=
          ih rest hrest_size hA a (upsertA e k y) r (by omega) hAl hgA hrepA
            hndA hmrg
        refine ⟨h2, ?_, h2l, by omega, h2g, h2rep, h2nd, ?_, ?_⟩
        · rw [update_dict_cons_notmap h a k y rest hmy]
          simp only [hset, hupd2]
        · intro c hc hca hcr
          have e2 : nodeAt h2.nodes c = nodeAt hA.nodes c := by
            refine h2fr c (by omega) hca ?_
            intro hcin
            exact hcr (hreach_sub c hcin)
          rw [e2, hAfr c hc hca]
        · intro c hc
          rcases h2sub c hc with hold | hge
          · exact Or.inl (hreach_sub c hold)
          · exact Or.inr (by omega)
      | some m' =>
        have hym : y = .vMap m' := isMapY_some hmy
        subst hym
        have hm'_size : sizeOf m' ≤ n := by
          simp only [List.cons.sizeOf_spec, Prod.mk.sizeOf_spec,
            Yaml.vMap.sizeOf_spec] at hm
          omega
        cases hlkh : lookupA (nodeAt h.nodes a).attributes k with
        | none =>
          -- key absent: a fresh child is created and filled, then appended
          have hlke : lookupA e k = none := ReprA_lookup_none hrep k hlkh
          cases hm1 : mergeEntries ([] : List (String × Yaml)) m' with
          | none => simp [mergeEntries, hlke, hm1] at hmrg
          | some r1 =>
            simp only [mergeEntries, hlke, hm1] at hmrg
            obtain ⟨hA, hgi, hAl, hAlen, hAfr, hAattr, hAname, hAnew⟩ :=
              getItem_create ha hl hlkh
            have hgA : GoodHeap hA.nodes :=
              GoodHeap_extend hg ha hAlen hAfr hAattr hAnew
            have hrepL : ReprA hA.nodes h.nodes.length
                (nodeAt hA.nodes h.nodes.length).attributes [] := by
              rw [hAnew]
              exact ReprA.nil _
            have hndL : (reachAux hA.nodes h.nodes.length
                (nodeAt hA.nodes h.nodes.length).attributes).Nodup := by
              rw [hAnew]
              simp [reachAux]
            have hreachL : reachAux hA.nodes h.nodes.length
                (nodeAt hA.nodes h.nodes.length).attributes = [] := by
              rw [hAnew]
              simp [reachAux]
            obtain ⟨g, hupd1, hgl, hglen, hggood, hgrep, hgnd, hgfr, hgsub⟩ :=
              ih m' hm'_size hA h.nodes.length [] r1 (by omega) hAl hgA hrepL
                hndL hm1
            have hanode : nodeAt g.nodes a = nodeAt hA.nodes a := by
              refine hgfr a (by omega) (by omega) ?_
              rw [hreachL]
              simp
            have hstabOld : ∀ c ∈ reachAux h.nodes a (nodeAt h.nodes a).attributes,
                nodeAt g.nodes c = nodeAt h.nodes c := by
              intro c hc
              have hb := reachAux_bound h.nodes a (nodeAt h.nodes a).attributes c hc
              have e1 : nodeAt hA.nodes c = nodeAt h.nodes c :=
                hAfr c hb.2 (by omega)
              have e2 : nodeAt g.nodes c = nodeAt hA.nodes c := by
                refine hgfr c (by omega) (by omega) ?_
                rw [hreachL]
                simp
              rw [e2, e1]
            have hlenG : h.nodes.length ≤ g.nodes.length := by omega
            have hrepOldG : ReprA g.nodes a (nodeAt h.nodes a).attributes e :=
              ReprA_stable hlenG hrep hstabOld
            have hreachOldG : reachAux g.nodes a (nodeAt h.nodes a).attributes
                = reachAux h.nodes a (nodeAt h.nodes a).attributes :=
              reachAux_stable hlenG hrep hstabOld
            have hrepAG : ReprA g.nodes a (nodeAt g.nodes a).attributes
                (upsertA e k (.vMap r1)) := by
              rw [hanode, hAattr, upsertA_of_lookup_none _ hlke]
              exact ReprA_append_ref hrepOldG ha (by omega) hgrep
            have hreachAG : reachAux g.nodes a (nodeAt g.nodes a).attributes
                = reachAux h.nodes a (nodeAt h.nodes a).attributes
                  ++ (h.nodes.length ::
                    reachAux g.nodes h.nodes.length
                      (nodeAt g.nodes h.nodes.length).attributes) := by
              rw [hanode, hAattr, reachAux_append, hreachOldG]
              simp only [reachAux]
              rw [dif_pos ⟨ha, by omega⟩]
              simp
            have hfreshG : ∀ c ∈ reachAux g.nodes h.nodes.length
                (nodeAt g.nodes h.nodes.length).attributes, h.nodes.length ≤ c := by
              intro c hc
              rcases hgsub c hc with hold | hge
              · rw [hreachL] at hold
                simp at hold
              · omega
            have hndAG : (reachAux g.nodes a (nodeAt g.nodes a).attributes).Nodup := by
              rw [hreachAG, List.nodup_append]
              refine ⟨hnd, ?_, ?_⟩
              · rw [List.nodup_cons]
                refine ⟨?_, hgnd⟩
                intro hin
                have := reachAux_bound g.nodes h.nodes.length
                  (nodeAt g.nodes h.nodes.length).attributes _ hin
                omega
              · intro x hx1 hx2
                have hxlt := (reachAux_bound h.nodes a
                  (nodeAt h.nodes a).attributes x hx1).2
                rcases List.mem_cons.1 hx2 with rfl | hx2'
                · omega
                · have := hfreshG x hx2'
                  omega
            obtain ⟨h2, hupd2, h2l, h2len, h2g, h2rep, h2nd, h2fr, h2sub⟩ :=
              ih rest hrest_size g a (upsertA e k (.vMap r1)) r (by omega) hgl
                hggood hrepAG hndAG hmrg
            refine ⟨h2, ?_, h2l, by omega, h2g, h2rep, h2nd, ?_, ?_⟩
            · simp only [update_dict, hgi, hupd1, hupd2]
            · intro c hc hca hcr
              have e3 : nodeAt h2.nodes c = nodeAt g.nodes c := by
                refine h2fr c (by omega) hca ?_
                rw [hreachAG]
                intro hcin
                rcases List.mem_append.1 hcin with hcin | hcin
                · exact hcr hcin
                · rcases List.mem_cons.1 hcin with rfl | hcin'
                  · omega
                  · have := hfreshG c hcin'
                    omega
              have e4 : nodeAt g.nodes c = nodeAt hA.nodes c := by
                refine hgfr c (by omega) (by omega) ?_
                rw [hreachL]
                simp
              rw [e3, e4, hAfr c hc hca]
            · intro c hc
              rcases h2sub c hc with hold | hge
              · rw [hreachAG] at hold
                rcases List.mem_append.1 hold with hold | hold
                · exact Or.inl hold
                · rcases List.mem_cons.1 hold with rfl | hold'
                  · exact Or.inr (by omega)
                  · exact Or.inr (hfreshG c hold')
              · exact Or.inr (by omega)
        | some v =>
          cases v with
          | prim y0 =>
            obtain ⟨hlke, hy0⟩ := ReprA_lookup_prim hrep k y0 hlkh
            cases y0 with
            | vMap mm => simp [isMapY] at hy0
            | vNull => simp [mergeEntries, hlke] at hmrg
            | vBool b0 => simp [mergeEntries, hlke] at hmrg
            | vInt n0 => simp [mergeEntries, hlke] at hmrg
            | vStr s0 => simp [mergeEntries, hlke] at hmrg
          | ref b =>
            obtain ⟨sub, hlke, habb, hbb, hrepb, hsl⟩ :=
              ReprA_lookup_ref hrep k b hlkh
            cases hm1 : mergeEntries sub m' with
            | none => simp [mergeEntries, hlke, hm1] at hmrg
            | some r1 =>
              simp only [mergeEntries, hlke, hm1] at hmrg
              have hndb0 : (b :: reachAux h.nodes b
                  (nodeAt h.nodes b).attributes).Nodup := hsl.nodup hnd
              have hndb : (reachAux h.nodes b
                  (nodeAt h.nodes b).attributes).Nodup :=
                (List.nodup_cons.1 hndb0).2
              obtain ⟨g, hupd1, hgl, hglen, hggood, hgrep, hgnd, hgfr, hgsub⟩ :=
                ih m' hm'_size h b sub r1 hbb hl hg hrepb hndb hm1
              have hgndb : (b :: reachAux g.nodes b
                  (nodeAt g.nodes b).attributes).Nodup := by
                rw [List.nodup_cons]
                refine ⟨?_, hgnd⟩
                intro hin
                have := reachAux_bound g.nodes b (nodeAt g.nodes b).attributes _ hin
                omega
              obtain ⟨hrepAG, hndAG, hsubAG⟩ :=
                ReprA_update_child (by omega) hgfr hgrep hgndb hgsub hrep hnd hlkh
              have hanode : nodeAt g.nodes a = nodeAt h.nodes a := by
                refine hgfr a ha (by omega) ?_
                intro hin
                have := reachAux_bound h.nodes b (nodeAt h.nodes b).attributes _ hin
                omega
              have hgi : getItem h a k = (.ok (.ref b), h) := by
                simp [getItem, hlkh]
              obtain ⟨h2, hupd2, h2l, h2len, h2g, h2rep, h2nd, h2fr, h2sub⟩ :=
                ih rest hrest_size g a (upsertA e k (.vMap r1)) r (by omega) hgl
                  hggood (by rw [hanode]; exact hrepAG) (by rw [hanode]; exact hndAG)
                  hmrg
              refine ⟨h2, ?_, h2l, by omega, h2g, h2rep, h2nd, ?_, ?_⟩
              · simp only [update_dict, hgi, hupd1, hupd2]
              · intro c hc hca hcr
                have e3 : nodeAt h2.nodes c = nodeAt g.nodes c := by
                  refine h2fr c (by omega) hca ?_
                  rw [hanode]
                  intro hcin
                  rcases hsubAG c hcin with hold | hge
                  · exact hcr hold
                  · omega
                have e4 : nodeAt g.nodes c = nodeAt h.nodes c := by
                  refine hgfr c hc ?_ ?_
                  · intro he
                    exact hcr (he ▸ hsl.subset (List.mem_cons_self _ _))
                  · intro hcin
                    exact hcr (hsl.subset (List.mem_cons_of_mem _ hcin))
                rw [e3, e4]
              · intro c hc
                rcases h2sub c hc with hold | hge
                · rw [hanode] at hold
                  rcases hsubAG c hold with hold' | hge'
                  · exact Or.inl hold'
                  · exact Or.inr hge'
                · exact Or.inr (by omega)

/-- One raw in-memory registration on a locked configuration whose root
represents `e`: when the spec-side merge of the registered mapping into `e`
is defined, the registration succeeds and the root afterwards represents
the merged mapping (tree re-locked, invariants maintained). -/
theorem register_raw_step (c : Configuration) (m e r : List (String × Yaml))
    (_hl : c.heap.locked = true)
    (ha : 0 < c.heap.nodes.length)
    (hg : GoodHeap c.heap.nodes)
    (hrep : ReprA c.heap.nodes 0 (nodeAt c.heap.nodes 0).attributes e)
    (hnd : (reachAux c.heap.nodes 0 (nodeAt c.heap.nodes 0).attributes).Nodup)
    (hmrg : mergeEntries e m = some r) :
    (register_parsed c (some (.vMap m)) none true false none).1 = .ok () ∧
    ((register_parsed c (some (.vMap m)) none true false none).2).heap.locked = true ∧
    0 < ((register_parsed c (some (.vMap m)) none true false
      none).2).heap.nodes.length ∧
    GoodHeap ((register_parsed c (some (.vMap m)) none true false
      none).2).heap.nodes ∧
    ReprA ((register_parsed c (some (.vMap m)) none true false none).2).heap.nodes 0
      (nodeAt ((register_parsed c (some (.vMap m)) none true false
        none).2).heap.nodes 0).attributes r ∧
    (reachAux ((register_parsed c (some (.vMap m)) none true false
        none).2).heap.nodes 0
      (nodeAt ((register_parsed c (some (.vMap m)) none true false
        none).2).heap.nodes 0).attributes).Nodup := by
  obtain ⟨h2, hupd, h2l, h2len, h2g, h2rep, h2nd, _, _⟩ :=
    update_dict_merge (sizeOf m) m (le_refl _) ⟨c.heap.nodes, false⟩ 0 e r ha rfl
      hg hrep hnd hmrg
  have h2len2 : c.heap.nodes.length ≤ h2.nodes.length := h2len
  have hmix : mixin_config c.env c.heap
      { config := some (.vMap m), filepath := none, raw := true,
        optional := false, nested := none }
      = (.ok (), { h2 with locked := true }) := by
    simp only [mixin_config, envAbsent, selectChoice, walkNested, mergeChoice]
    simp only [Option.isNone_some, Bool.and_false, Bool.false_eq_true, if_false,
      if_true]
    simp [hupd]
  refine ⟨?_, ?_, ?_, ?_, ?_, ?_⟩
  · show (mixin_config c.env c.heap
      { config := some (.vMap m), filepath := none, raw := true,
        optional := false, nested := none }).1 = .ok ()
    rw [hmix]
  · show (mixin_config c.env c.heap
      { config := some (.vMap m), filepath := none, raw := true,
        optional := false, nested := none }).2.locked = true
    rw [hmix]
  · show 0 < (mixin_config c.env c.heap
      { config := some (.vMap m), filepath := none, raw := true,
        optional := false, nested := none }).2.nodes.length
    rw [hmix]
    show 0 < h2.nodes.length
    omega
  · show GoodHeap (mixin_config c.env c.heap
      { config := some (.vMap m), filepath := none, raw := true,
        optional := false, nested := none }).2.nodes
    rw [hmix]
    exact h2g
  · show ReprA (mixin_config c.env c.heap
      { config := some (.vMap m), filepath := none, raw := true,
        optional := false, nested := none }).2.nodes 0
      (nodeAt (mixin_config c.env c.heap
        { config := some (.vMap m), filepath := none, raw := true,
          optional := false, nested := none }).2.nodes 0).attributes r
    rw [hmix]
    exact h2rep
  · show (reachAux (mixin_config c.env c.heap
      { config := some (.vMap m), filepath := none, raw := true,
        optional := false, nested := none }).2.nodes 0
      (nodeAt (mixin_config c.env c.heap
        { config := some (.vMap m), filepath := none, raw := true,
          optional := false, nested := none }).2.nodes 0).attributes).Nodup
    rw [hmix]
    exact h2nd

/-- A sequence of raw registrations realises the folded spec-side merge:
when the fold is defined, every registration succeeds and the root ends up
representing the folded mapping. -/
theorem register_raw_all_spec :
    ∀ (ms : List (List (String × Yaml))) (c : Configuration)
      (e r : List (String × Yaml)),
      c.heap.locked = true → 0 < c.heap.nodes.length → GoodHeap c.heap.nodes →
      ReprA c.heap.nodes 0 (nodeAt c.heap.nodes 0).attributes e →
      (reachAux c.heap.nodes 0 (nodeAt c.heap.nodes 0).attributes).Nodup →
      mergeAll e ms = some r →
      (registerRawAll c ms).1 = .ok () ∧
      ReprA (registerRawAll c ms).2.heap.nodes 0
        (nodeAt (registerRawAll c ms).2.heap.nodes 0).attributes r := by
  intro ms
  induction ms with
  | nil =>
    intro c e r hl ha hg hrep hnd hmrg
    simp only [mergeAll, Option.some.injEq] at hmrg
    subst hmrg
    exact ⟨by simp [registerRawAll], by simpa [registerRawAll] using hrep⟩
  | cons m rest ihs =>
    intro c e r hl ha hg hrep hnd hmrg
    cases hm1 : mergeEntries e m with
    | none => simp [mergeAll, hm1] at hmrg
    | some e1 =>
      simp only [mergeAll, hm1] at hmrg
      obtain ⟨hok, hl', ha', hg', hrep', hnd'⟩ :=
        register_raw_step c m e e1 hl ha hg hrep hnd hm1
      have hstep : register_parsed c (some (.vMap m)) none true false none
          = (.ok (), (register_parsed c (some (.vMap m)) none true false none).2) := by
        rw [Prod.ext_iff]
        exact ⟨hok, rfl⟩
      have hred : registerRawAll c (m :: rest)
          = registerRawAll
              (register_parsed c (some (.vMap m)) none true false none).2 rest := by
        simp only [registerRawAll]
        rw [hstep]
      rw [hred]
      exact ihs _ e1 r hl' ha' hg' hrep' hnd' hmrg

/-- C9: for every sequence of raw in-memory registrations of nested
mappings into a fresh configuration whose spec-side merged mapping is
defined, every registration succeeds and `to_dict` of the root returns
exactly that merged mapping: building the tree with `update_dict` and
reading it back with `to_dict` is a round trip through the registered
mappings' merge. -/
theorem c9_raw_registrations_roundtrip (env : String)
    (ms : List (List (String × Yaml))) (r : List (String × Yaml))
    (hmrg : mergeAll [] ms = some r) :
    (registerRawAll (initialConfiguration env) ms).1 = .ok () ∧
    to_dict ((registerRawAll (initialConfiguration env) ms).2).heap 0
      = .vMap r := by
  have hg : GoodHeap (initialConfiguration env).heap.nodes := by
    intro b hb kk c hm
    simp [initialConfiguration] at hb
    subst hb
    simp [initialConfiguration, nodeAt] at hm
  obtain ⟨hok, hrepfin⟩ :=
    register_raw_all_spec ms (initialConfiguration env) [] r rfl
      (by simp [initialConfiguration]) hg (ReprA.nil 0)
      (by simp [initialConfiguration, nodeAt, reachAux]) hmrg
  refine ⟨hok, ?_⟩
  simp only [to_dict]
  rw [ReprA_toDictAux hrepfin]

/-- Witness for C9: two raw registrations with an overlapping nested key. -/
theorem c9_raw_registrations_roundtrip_witness :
    mergeAll []
        [[("a", Yaml.vMap [("b", Yaml.vInt 1)])],
         [("a", Yaml.vMap [("c", Yaml.vInt 2)]), ("d", Yaml.vInt 3)]]
      = some [("a", Yaml.vMap [("b", Yaml.vInt 1), ("c", Yaml.vInt 2)]),
              ("d", Yaml.vInt 3)] ∧
    ((registerRawAll (initialConfiguration "local")
        [[("a", Yaml.vMap [("b", Yaml.vInt 1)])],
         [("a", Yaml.vMap [("c", Yaml.vInt 2)]), ("d", Yaml.vInt 3)]]).1
       = .ok () ∧
     to_dict ((registerRawAll (initialConfiguration "local")
        [[("a", Yaml.vMap [("b", Yaml.vInt 1)])],
         [("a", Yaml.vMap [("c", Yaml.vInt 2)]), ("d", Yaml.vInt 3)]]).2).heap 0
       = .vMap [("a", Yaml.vMap [("b", Yaml.vInt 1), ("c", Yaml.vInt 2)]),
                ("d", Yaml.vInt 3)]) :=
  ⟨by simp [mergeAll, mergeEntries, lookupA, upsertA],
   c9_raw_registrations_roundtrip "local" _ _
     (by simp [mergeAll, mergeEntries, lookupA, upsertA])⟩
